import Mathlib

/-!
# Synonym dictionary (`synonyms_impl.c`): embedding and verification

The C file keeps a hash table of `WordNode`s (100 buckets, chained through
`next`) and lays a disjoint-set forest over them (`parent`,
`isRepresentative`, `rank`) together with a per-representative linked list
of members (`listHead` / `listTail`).

Embedding.
* A C string is the list of its `char` values up to the terminating NUL.
* A pointer to a `WordNode` is the index of the node in the list of
  allocated nodes (`heap`); a nullable pointer is an `Option Nat`.
* A bucket chain (`table[i]`, then `next`, `next`, ...) is the list of the
  node pointers on it, in chain order.
* The member list of a node (`listHead`, then `next`, ..., ending in the
  cell `listTail`) is the list of the `w` fields of its cells.
* Every function returns an `Option`: `none` means that the C function does
  not return a value (a null pointer is dereferenced, an array is indexed
  outside its bounds, or a loop does not terminate).
* `malloc` is assumed to succeed, as the C code assumes itself.
-/

namespace Synonyms

/-- A C string: its `char` values in order, without the terminating NUL. -/
abbrev Word := List Int

/-- The `#define TABLE_SIZE 100` of the source. -/
def TABLE_SIZE : Nat := 100

/-- Two's complement wrap-around of a `long long int` (64 bits). -/
def wrap64 (x : Int) : Int := (x + 2 ^ 63) % 2 ^ 64 - 2 ^ 63

/-- Conversion of a `long long int` to the `int` return type (32 bits). -/
def wrap32 (x : Int) : Int := (x + 2 ^ 31) % 2 ^ 32 - 2 ^ 31

/-- One iteration of the loop of `getHashVal`:
`val *= 26; val += word[i]; val %= 100;` on a 64-bit accumulator. The C
remainder truncates towards zero (`Int.tmod`). -/
def hashStep (val : Int) (c : Int) : Int :=
  Int.tmod (wrap64 (wrap64 (val * 26) + c)) 100

/-- The function `getHashVal`: the loop runs over the characters of the word
from `val = 0` (`i` from 0 to `strlen(word)`); the `long long` result is
returned as an `int`. -/
def getHashVal (word : Word) : Int :=
  wrap32 (word.foldl hashStep 0)

/-- The fold the specification describes, over unbounded integers. -/
def specHash (word : Word) : Int :=
  word.foldl (fun val c => Int.tmod (val * 26 + c) 100) 0

/-- The `char` a byte is read as on a platform whose `char` is signed. -/
def byteToChar (b : Nat) : Int :=
  if b % 256 < 128 then (b % 256 : Nat) else ((b % 256 : Nat) : Int) - 256

/-- The struct `_WordNode`. The field `next` lives in the bucket chains of
the table, and `listHead`/`listTail` are the list `list`. The `int` field
`rank` only ever counts entries of the dictionary, far fewer than `2^31`, and
is a natural number here. -/
structure WordNode where
  word : Word
  parent : Option Nat
  isRepresentative : Bool
  rank : Nat
  list : List Nat
deriving DecidableEq, Repr

end Synonyms

/-- The struct `_Synonyms`: the array `table` of bucket heads, together with
the nodes allocated so far. -/
structure Synonyms where
  heap : List Synonyms.WordNode
  table : List (List Nat)
deriving DecidableEq, Repr

namespace Synonyms

/-- The function `synonyms_init`: all `TABLE_SIZE` buckets are null. -/
def synonyms_init : Synonyms :=
  { heap := [], table := List.replicate TABLE_SIZE [] }

/-- The read `s->table[i]`, defined for `0 <= i < TABLE_SIZE` only. -/
def bucket (s : Synonyms) (i : Int) : Option (List Nat) :=
  if 0 ≤ i ∧ i < (TABLE_SIZE : Int) then s.table[i.toNat]? else none

/-- The loop of `FindWordNode` along one chain: the first node whose text
equals `word` (`strcmp` returns 0), or null. -/
def findInChain (heap : List WordNode) (word : Word) :
    List Nat → Option (Option Nat)
  | [] => some none
  | w :: rest =>
    match heap[w]? with
    | none => none
    | some n => if word = n.word then some (some w) else findInChain heap word rest

/-- The function `FindWordNode`. -/
def FindWordNode (s : Synonyms) (word : Word) : Option (Option Nat) :=
  match bucket s (getHashVal word) with
  | none => none
  | some chain => findInChain s.heap word chain

/-- The function `GetNewWordNode`: zeroed node, copy of the text,
`isRepresentative = true`. -/
def GetNewWordNode (word : Word) : WordNode :=
  { word := word, parent := none, isRepresentative := true, rank := 0, list := [] }

/-- The function `InsertWordNode`: the new node is linked at the end of the
chain of its bucket (or becomes the bucket head); its pointer is returned. -/
def InsertWordNode (s : Synonyms) (word : Word) : Option (Synonyms × Nat) :=
  match bucket s (getHashVal word) with
  | none => none
  | some chain =>
    some ({ heap := s.heap ++ [GetNewWordNode word],
            table := s.table.set (getHashVal word).toNat (chain ++ [s.heap.length]) },
          s.heap.length)

/-- The function `GetRepresentative`: `while (!w->isRepresentative) w = w->parent;`
run for at most `fuel` evaluations of the loop condition. The callers give
one more unit of fuel than there are nodes: a walk that needs more passes
through some node twice, and the C loop never ends. -/
def GetRepresentative (heap : List WordNode) : Nat → Option Nat → Option Nat
  | 0, _ => none
  | _, none => none
  | fuel + 1, some w =>
    match heap[w]? with
    | none => none
    | some n =>
      if n.isRepresentative then some w else GetRepresentative heap fuel n.parent

/-- The function `UpdateParent`: `s->w->parent = p` for every cell of the list. -/
def UpdateParent (heap : List WordNode) (p : Nat) : List Nat → Option (List WordNode)
  | [] => some heap
  | w :: rest =>
    match heap[w]? with
    | none => none
    | some n => UpdateParent (heap.set w { n with parent := some p }) p rest

/-- The branch of `AddSynonyms` in which `a` absorbs `b` (the two branches of
the source are this code with `p1`, `p2` exchanged). Statement by statement:
`b->parent = a; b->isRepresentative = false; a->rank += b->rank + 1;
b->rank = 0; UpdateParent(b->listHead, a);` then the list of `a` gets a new
cell for `b`, followed, when the list of `a` was not empty, by the cells of
`b`; finally `b->listHead = b->listTail = NULL`. -/
def absorb (heap : List WordNode) (a b : Nat) : Option (List WordNode) :=
  match heap[b]? with
  | none => none
  | some nb =>
    let h1 := heap.set b { nb with parent := some a, isRepresentative := false }
    match h1[a]?, h1[b]? with
    | some na, some nb1 =>
      let h2 := h1.set a { na with rank := na.rank + (nb1.rank + 1) }
      match h2[b]? with
      | none => none
      | some nb2 =>
        let h3 := h2.set b { nb2 with rank := 0 }
        match h3[b]? with
        | none => none
        | some nb3 =>
          match UpdateParent h3 a nb3.list with
          | none => none
          | some h4 =>
            match h4[a]?, h4[b]? with
            | some na4, some nb4 =>
              let h5 :=
                if na4.list = [] then h4.set a { na4 with list := [b] }
                else h4.set a { na4 with list := na4.list ++ [b] ++ nb4.list }
              match h5[b]? with
              | none => none
              | some nb5 => some (h5.set b { nb5 with list := [] })
            | _, _ => none
    | _, _ => none

/-- The function `AddSynonyms`: the nodes and the returned pointer. -/
def AddSynonyms (heap : List WordNode) (p1 p2 : Nat) : Option (List WordNode × Nat) :=
  if p1 = p2 then some (heap, p1)
  else
    match heap[p1]?, heap[p2]? with
    | some n1, some n2 =>
      if n1.rank ≥ n2.rank then (absorb heap p1 p2).map (fun h => (h, p1))
      else (absorb heap p2 p1).map (fun h => (h, p2))
    | _, _ => none

/-- The lines `w = FindWordNode(s, word); if (!w) w = InsertWordNode(s, word);
w = GetRepresentative(w);` of `synonyms_define`. -/
def resolve (s : Synonyms) (word : Word) : Option (Synonyms × Nat) :=
  match FindWordNode s word with
  | none => none
  | some found =>
    match (match found with
           | some w => some (s, w)
           | none => InsertWordNode s word) with
    | none => none
    | some (s1, w) =>
      match GetRepresentative s1.heap (s1.heap.length + 1) (some w) with
      | none => none
      | some r => some (s1, r)

/-- The `while (t)` loop of `synonyms_define` over the variadic arguments. -/
def defineLoop : Synonyms → Nat → List Word → Option Synonyms
  | s, _, [] => some s
  | s, w1, t :: ts =>
    match resolve s t with
    | none => none
    | some (s1, w2) =>
      match AddSynonyms s1.heap w1 w2 with
      | none => none
      | some (h, w) => defineLoop { s1 with heap := h } w ts

/-- The function `synonyms_define` (it always returns 0; the result here is the
dictionary after the call). -/
def synonyms_define (s : Synonyms) (word : Word) (ts : List Word) : Option Synonyms :=
  match resolve s word with
  | none => none
  | some (s1, w1) => defineLoop s1 w1 ts

/-- The function `is_synonym`. -/
def is_synonym (s : Synonyms) (w1 w2 : Word) : Option Bool :=
  if w1 = w2 then some false
  else
    match FindWordNode s w1 with
    | none => none
    | some W1 =>
      match FindWordNode s w2 with
      | none => none
      | some W2 =>
        match W1, W2 with
        | some p1, some p2 =>
          match s.heap[p1]?, s.heap[p2]? with
          | some n1, some n2 =>
            if n1.parent = none then some (decide (some p1 = n2.parent))
            else if n2.parent = none then some (decide (some p2 = n1.parent))
            else some (decide (n1.parent = n2.parent))
          | _, _ => none
        | _, _ => some false

/-- The store `synonym_list[i] = copy of text`: the array has the slots it was
allocated with; a slot holds `none` until it is written. -/
def writeSlot (arr : List (Option Word)) (i : Nat) (text : Word) :
    Option (List (Option Word)) :=
  if i < arr.length then some (arr.set i (some text)) else none

/-- The loop of `synonyms_get` for a queried word that is the representative:
`while (i < w->rank) { synonym_list[i] = copy(s->w->word); s = s->next; i++; }`. -/
def copyLoop (heap : List WordNode) (rank : Nat) :
    Nat → List Nat → List (Option Word) → Option (List (Option Word))
  | i, [], arr => if i < rank then none else some arr
  | i, m :: rest, arr =>
    if i < rank then
      match heap[m]? with
      | none => none
      | some nm =>
        match writeSlot arr i nm.word with
        | none => none
        | some arr1 => copyLoop heap rank (i + 1) rest arr1
    else some arr

/-- The loop of `synonyms_get` in the other branch: a cell whose text equals
`w->word` is skipped, where `w` is by then the representative. -/
def skipLoop (heap : List WordNode) (rank : Nat) (repWord : Word) :
    Nat → List Nat → List (Option Word) → Option (List (Option Word))
  | i, [], arr => if i < rank then none else some arr
  | i, m :: rest, arr =>
    if i < rank then
      match heap[m]? with
      | none => none
      | some nm =>
        if nm.word = repWord then skipLoop heap rank repWord i rest arr
        else
          match writeSlot arr i nm.word with
          | none => none
          | some arr1 => skipLoop heap rank repWord (i + 1) rest arr1
    else some arr

/-- The function `synonyms_get`: the array it returns, slot by slot. -/
def synonyms_get (s : Synonyms) (word : Word) : Option (List (Option Word)) :=
  match FindWordNode s word with
  | none => none
  | some found =>
    match GetRepresentative s.heap (s.heap.length + 1) found with
    | none => none
    | some w =>
      match s.heap[w]? with
      | none => none
      | some nw =>
        if nw.word = word then
          copyLoop s.heap nw.rank 0 nw.list (List.replicate nw.rank none)
        else
          match writeSlot (List.replicate nw.rank none) 0 nw.word with
          | none => none
          | some arr => skipLoop s.heap nw.rank nw.word 1 nw.list arr

/-- A sequence of `synonyms_define` calls `(word, synonyms)`, made one after
the other on the dictionary `s`. -/
def runFrom : Synonyms → List (Word × List Word) → Option Synonyms
  | s, [] => some s
  | s, c :: cs =>
    match synonyms_define s c.1 c.2 with
    | none => none
    | some s1 => runFrom s1 cs

/-- A sequence of `synonyms_define` calls made on the empty dictionary. -/
def run (calls : List (Word × List Word)) : Option Synonyms :=
  runFrom synonyms_init calls

/-- The dictionaries reached from the empty one by `synonyms_define` calls. -/
def Reachable (d : Synonyms) : Prop := ∃ calls, run calls = some d

/-- The word indexes the table inside its bounds: the reads `s->table[i]` of
`FindWordNode` and `InsertWordNode` are defined for it. -/
def HashInRange (w : Word) : Prop :=
  0 ≤ getHashVal w ∧ getHashVal w < (TABLE_SIZE : Int)

instance (w : Word) : Decidable (HashInRange w) := by
  unfold HashInRange; infer_instance

/-- The dictionary has an entry with text `w`. -/
def Known (s : Synonyms) (w : Word) : Prop :=
  ∃ (p : Nat) (n : WordNode), s.heap[p]? = some n ∧ n.word = w

/-- The representative of the group of a word: `GetRepresentative` applied to
the entry `FindWordNode` returns, when there is one. -/
def representative (s : Synonyms) (w : Word) : Option Nat :=
  match FindWordNode s w with
  | some (some p) => GetRepresentative s.heap (s.heap.length + 1) (some p)
  | _ => none

/-- Two words with entries in the same group. -/
def SameGroup (s : Synonyms) (x y : Word) : Prop :=
  ∃ r, representative s x = some r ∧ representative s y = some r

/-- Two words appeared together in one of the calls. -/
def Together (calls : List (Word × List Word)) (x y : Word) : Prop :=
  ∃ c ∈ calls, x ∈ c.1 :: c.2 ∧ y ∈ c.1 :: c.2

/-- Two words are linked by a chain of calls, each link being two words that
appeared together in one call. -/
def Linked (calls : List (Word × List Word)) (x y : Word) : Prop :=
  Relation.EqvGen (Together calls) x y

/-- The number of entries whose representative is `r`. -/
def groupSize (heap : List WordNode) (r : Nat) : Nat :=
  (List.range heap.length).countP
    (fun p => GetRepresentative heap (heap.length + 1) (some p) == some r)

/-- The table indexes the entries correctly: every pointer on the chain of
bucket `i` is an entry whose text hashes to `i`, every entry is on the chain
of the bucket of its text, and no two entries have the same text. -/
structure TableOK (s : Synonyms) : Prop where
  table_len : s.table.length = TABLE_SIZE
  chain_ok : ∀ (i : Nat) (chain : List Nat), s.table[i]? = some chain →
    ∀ p ∈ chain, ∃ n : WordNode, s.heap[p]? = some n ∧ getHashVal n.word = (i : Int)
  in_chain : ∀ (p : Nat) (n : WordNode), s.heap[p]? = some n →
    ∃ chain, bucket s (getHashVal n.word) = some chain ∧ p ∈ chain
  word_inj : ∀ (p q : Nat) (n m : WordNode), s.heap[p]? = some n → s.heap[q]? = some m →
    n.word = m.word → p = q

/-- The forest is flat and the member lists are exact. -/
structure Forest (heap : List WordNode) : Prop where
  rep_ok : ∀ (r : Nat) (nr : WordNode), heap[r]? = some nr → nr.isRepresentative = true →
    nr.parent = none ∧ nr.rank = nr.list.length ∧ nr.list.Nodup ∧
    ∀ m ∈ nr.list, ∃ nm : WordNode,
      heap[m]? = some nm ∧ nm.isRepresentative = false ∧ nm.parent = some r
  mem_ok : ∀ (m : Nat) (nm : WordNode), heap[m]? = some nm → nm.isRepresentative = false →
    nm.rank = 0 ∧ nm.list = [] ∧
    ∃ (r : Nat) (nr : WordNode), nm.parent = some r ∧ heap[r]? = some nr ∧
      nr.isRepresentative = true ∧ m ∈ nr.list

/-- The invariant of the dictionary. -/
structure WF (s : Synonyms) : Prop where
  tbl : TableOK s
  forest : Forest s.heap

/-- What `absorb` does to a flat forest in which `a` and `b` are two
representatives, `a` of rank at least that of `b`. -/
structure Absorbed (heap heap' : List WordNode) (a b : Nat) (na nb : WordNode) : Prop where
  len : heap'.length = heap.length
  at_a : heap'[a]? = some { na with
    rank := na.rank + (nb.rank + 1), list := na.list ++ [b] ++ nb.list }
  at_b : heap'[b]? = some { nb with
    parent := some a, isRepresentative := false, rank := 0, list := [] }
  at_mem : ∀ (q : Nat) (nq : WordNode), q ∈ nb.list → heap[q]? = some nq →
    heap'[q]? = some { nq with parent := some a }
  at_other : ∀ q, q ≠ a → q ≠ b → q ∉ nb.list → heap'[q]? = heap[q]?

/-- The words the loop of `synonyms_define` gathers into the group of the
accumulator `w1`. -/
def Gathered (s : Synonyms) (w1 : Nat) (ts : List Word) (x : Word) : Prop :=
  representative s x = some w1 ∨ ∃ t ∈ ts, x = t ∨ SameGroup s x t

/-- The words of the groups a call `synonyms_define` with words `l` touches. -/
def Touched (s : Synonyms) (l : List Word) (x : Word) : Prop :=
  ∃ t ∈ l, x = t ∨ SameGroup s x t

/-- The partition of all words the dictionary stands for: two words are
related when they are equal or have entries in the same group. -/
def groupSetoid (s : Synonyms) : Setoid Word where
  r x y := x = y ∨ SameGroup s x y
  iseqv := {
    refl := fun _ => Or.inl rfl
    symm := fun h => h.elim (fun e => Or.inl e.symm)
      (fun ⟨r, h1, h2⟩ => Or.inr ⟨r, h2, h1⟩)
    trans := fun h1 h2 =>
      h1.elim (fun e => e ▸ h2)
        (fun ⟨r, a1, a2⟩ => h2.elim (fun e => e ▸ Or.inr ⟨r, a1, a2⟩)
          (fun ⟨r', b1, b2⟩ => Or.inr ⟨r, a1, by
            rw [a2] at b1
            cases b1
            exact b2⟩)) }

/-- The partition in which the words of one call are one class. -/
def callSetoid (l : List Word) : Setoid Word :=
  Relation.EqvGen.setoid (fun x y => x ∈ l ∧ y ∈ l)

/-- The text of the entry a pointer refers to. -/
def textOf (heap : List WordNode) (p : Nat) : Option Word :=
  (heap[p]?).map WordNode.word

/-- The list the specification describes for `synonymsOf(word)`: the text of
the representative first when the queried word is not the representative,
then the text of every member in membership order, skipping the entry whose
text equals the queried word. -/
def specSynonymsOf (s : Synonyms) (word : Word) : Option (List Word) :=
  match representative s word with
  | none => none
  | some r =>
    match s.heap[r]? with
    | none => none
    | some nr =>
      some ((if nr.word = word then [] else [nr.word]) ++
        (nr.list.filterMap (textOf s.heap)).filter (fun t => decide (t ≠ word)))

/-! ### The words and dictionaries of the examples (ASCII) -/

/-- The word `happy`. -/
def happy : Word := [104, 97, 112, 112, 121]
/-- The word `glad`. -/
def glad : Word := [103, 108, 97, 100]
/-- The word `joyful`. -/
def joyful : Word := [106, 111, 121, 102, 117, 108]
/-- The word `sad`. -/
def sad : Word := [115, 97, 100]
/-- The word `unhappy`. -/
def unhappy : Word := [117, 110, 104, 97, 112, 112, 121]
/-- The word `cheerful`. -/
def cheerful : Word := [99, 104, 101, 101, 114, 102, 117, 108]
/-- The word `ghost`. -/
def ghost : Word := [103, 104, 111, 115, 116]
/-- The word `a`. -/
def wordA : Word := [97]
/-- The word `b`. -/
def wordB : Word := [98]
/-- The word `c`. -/
def wordC : Word := [99]
/-- The word `d`. -/
def wordD : Word := [100]
/-- The word `é` in UTF-8 (bytes `0xC3 0xA9`), read through a signed `char`. -/
def eAcute : Word := [byteToChar 0xC3, byteToChar 0xA9]

/-- The calls `define(happy, glad, joyful); define(sad, unhappy)`. -/
def twoGroupsCalls : List (Word × List Word) :=
  [(happy, [glad, joyful]), (sad, [unhappy])]

/-- The calls of the scenario of the specification:
`define(happy, glad, joyful); define(sad, unhappy); define(glad, cheerful)`. -/
def scenarioCalls : List (Word × List Word) :=
  [(happy, [glad, joyful]), (sad, [unhappy]), (glad, [cheerful])]

/-- The dictionary after `twoGroupsCalls`. -/
def twoGroups : Synonyms := (run twoGroupsCalls).getD synonyms_init

/-- The dictionary after `scenarioCalls`. -/
def scenarioDict : Synonyms := (run scenarioCalls).getD synonyms_init

/-- The dictionary after `define(a, b, c)`. -/
def dictABC : Synonyms := (run [(wordA, [wordB, wordC])]).getD synonyms_init

/-- The dictionary after `define(a)`. -/
def dictA : Synonyms := (run [(wordA, [])]).getD synonyms_init

/-- The entry of a word as the specification has it: the entry whose text is
the word, whatever the word hashes to, or none when the word is unknown. -/
def entryOf (s : Synonyms) (w : Word) : Option Nat :=
  (List.range s.heap.length).find? (fun p => decide (textOf s.heap p = some w))

/-- The answer the specification gives for `areSynonyms(w1, w2)`: false when
the words are equal, false when one of them is unknown, otherwise whether
`GetRepresentative` of the two entries is the same entry. -/
def areSynonymsSpec (s : Synonyms) (w1 w2 : Word) : Bool :=
  if w1 = w2 then false
  else
    match entryOf s w1, entryOf s w2 with
    | some p1, some p2 =>
      match GetRepresentative s.heap (s.heap.length + 1) (some p1),
            GetRepresentative s.heap (s.heap.length + 1) (some p2) with
      | some r1, some r2 => decide (r1 = r2)
      | _, _ => false
    | _, _ => false

/-- The dictionary after `define(happy, glad, joyful); define(sad, unhappy);
define(sad, happy)`: the representative `sad` has been absorbed by `happy`. -/
def mergedDict : Synonyms := (runFrom twoGroups [(sad, [happy])]).getD synonyms_init

/-! ## Lemmas -/

/-! ### Arithmetic of `getHashVal` -/

theorem wrap64_small (x : Int) (h1 : -(2 ^ 63) ≤ x) (h2 : x < 2 ^ 63) : wrap64 x = x := by
  unfold wrap64
  have : (x + 2 ^ 63) % 2 ^ 64 = x + 2 ^ 63 := Int.emod_eq_of_lt (by omega) (by omega)
  omega

theorem wrap32_small (x : Int) (h1 : -(2 ^ 31) ≤ x) (h2 : x < 2 ^ 31) : wrap32 x = x := by
  unfold wrap32
  have : (x + 2 ^ 31) % 2 ^ 32 = x + 2 ^ 31 := Int.emod_eq_of_lt (by omega) (by omega)
  omega

theorem tmod_100_bounds (x : Int) : -100 < Int.tmod x 100 ∧ Int.tmod x 100 < 100 := by
  constructor
  · rcases x with m | m
    · have : (0 : Int) ≤ Int.tmod (Int.ofNat m) 100 := Int.tmod_nonneg 100 (Int.ofNat_nonneg m)
      omega
    · show -100 < -Int.ofNat (m.succ % 100)
      have : m.succ % 100 < 100 := Nat.mod_lt _ (by decide)
      simp only [Int.ofNat_eq_coe]
      omega
  · exact Int.tmod_lt_of_pos x (by decide)

theorem tmod_100_nonneg (x : Int) (h : 0 ≤ x) : 0 ≤ Int.tmod x 100 :=
  Int.tmod_nonneg 100 h

/-- One loop iteration on an accumulator in `(-100, 100)` and a character in
`[-128, 255]` does not overflow. -/
theorem hashStep_eq (val c : Int) (hv : -100 < val ∧ val < 100) (hc : -128 ≤ c ∧ c ≤ 255) :
    hashStep val c = Int.tmod (val * 26 + c) 100 := by
  unfold hashStep
  rw [wrap64_small (val * 26) (by omega) (by omega), wrap64_small _ (by omega) (by omega)]

theorem foldl_hashStep (word : Word) (hc : ∀ c ∈ word, -128 ≤ c ∧ c ≤ 255) :
    ∀ val : Int, -100 < val ∧ val < 100 →
      word.foldl hashStep val = word.foldl (fun v c => Int.tmod (v * 26 + c) 100) val ∧
      -100 < word.foldl hashStep val ∧ word.foldl hashStep val < 100 ∧
      ((∀ c ∈ word, 0 ≤ c) → 0 ≤ val → 0 ≤ word.foldl hashStep val) := by
  induction word with
  | nil => intro val hv; simpa using hv
  | cons c cs ih =>
    intro val hv
    have hc0 := hc c (by simp)
    have hstep := hashStep_eq val c hv hc0
    have hb := tmod_100_bounds (val * 26 + c)
    have ih1 := ih (fun x hx => hc x (by simp [hx])) (hashStep val c) (by rw [hstep]; exact hb)
    simp only [List.foldl_cons]
    refine ⟨?_, ih1.2.1, ih1.2.2.1, ?_⟩
    · rw [ih1.1, hstep]
    · intro hpos hval
      apply ih1.2.2.2 (fun x hx => hpos x (by simp [hx]))
      rw [hstep]
      apply tmod_100_nonneg
      have := hpos c (by simp)
      nlinarith

theorem getHashVal_eq_specHash (word : Word) (hc : ∀ c ∈ word, -128 ≤ c ∧ c ≤ 255) :
    getHashVal word = specHash word ∧ -100 < getHashVal word ∧ getHashVal word < 100 := by
  have h := foldl_hashStep word hc 0 (by decide)
  unfold getHashVal specHash
  rw [wrap32_small _ (by omega) (by omega)]
  exact ⟨h.1, h.2.1, h.2.2.1⟩

theorem hashInRange_of_nonneg (word : Word) (hc : ∀ c ∈ word, 0 ≤ c ∧ c ≤ 255) :
    HashInRange word := by
  have h := foldl_hashStep word (fun c hx => ⟨by have := hc c hx; omega, (hc c hx).2⟩) 0 (by decide)
  unfold HashInRange getHashVal TABLE_SIZE
  rw [wrap32_small _ (by omega) (by omega)]
  have := h.2.2.2 (fun c hx => (hc c hx).1) (le_refl 0)
  constructor
  · exact this
  · have := h.2.2.1; simpa using this

/-! ### Lookup in the table -/

theorem bucket_isSome (s : Synonyms) (hl : s.table.length = TABLE_SIZE) (w : Word)
    (hw : HashInRange w) : ∃ chain, bucket s (getHashVal w) = some chain ∧
      s.table[(getHashVal w).toNat]? = some chain := by
  unfold bucket
  rw [if_pos (show 0 ≤ getHashVal w ∧ getHashVal w < (TABLE_SIZE : Int) from hw)]
  have h : (getHashVal w).toNat < s.table.length := by
    rw [hl]; have := hw.1; have := hw.2; unfold TABLE_SIZE at *; omega
  exact ⟨s.table[(getHashVal w).toNat], by simp [h], by simp [h]⟩

theorem bucket_eq_some (s : Synonyms) (i : Int) (chain : List Nat)
    (h : bucket s i = some chain) :
    0 ≤ i ∧ i < (TABLE_SIZE : Int) ∧ s.table[i.toNat]? = some chain := by
  unfold bucket at h
  split at h
  · next hi => exact ⟨hi.1, hi.2, h⟩
  · cases h

theorem findInChain_spec (heap : List WordNode) (w : Word) (chain : List Nat)
    (hv : ∀ p ∈ chain, ∃ n : WordNode, heap[p]? = some n) :
    ∃ res, findInChain heap w chain = some res ∧
      (res = none → ∀ p ∈ chain, ∀ n : WordNode, heap[p]? = some n → n.word ≠ w) ∧
      (∀ q, res = some q → q ∈ chain ∧ ∃ n : WordNode, heap[q]? = some n ∧ n.word = w) := by
  induction chain with
  | nil => exact ⟨none, rfl, by simp, by simp⟩
  | cons p rest ih =>
    obtain ⟨n, hn⟩ := hv p (by simp)
    obtain ⟨res, hres, h1, h2⟩ := ih (fun q hq => hv q (by simp [hq]))
    simp only [findInChain, hn]
    by_cases hw : w = n.word
    · refine ⟨some p, by simp [hw], by simp, ?_⟩
      intro q hq
      cases hq
      exact ⟨by simp, n, hn, hw.symm⟩
    · refine ⟨res, by simp [hw, hres], ?_, ?_⟩
      · intro hr q hq m hm
        rcases List.mem_cons.1 hq with rfl | hq
        · rw [hn] at hm; cases hm; exact fun h => hw h.symm
        · exact h1 hr q hq m hm
      · intro q hq
        obtain ⟨a, b⟩ := h2 q hq
        exact ⟨by simp [a], b⟩

theorem findInChain_some (heap : List WordNode) (w : Word) (chain : List Nat) (q : Nat)
    (h : findInChain heap w chain = some (some q)) :
    q ∈ chain ∧ ∃ n : WordNode, heap[q]? = some n ∧ n.word = w := by
  induction chain with
  | nil => simp [findInChain] at h
  | cons p rest ih =>
    simp only [findInChain] at h
    split at h
    · cases h
    · next n hn =>
      split at h
      · next hw =>
        cases h
        exact ⟨by simp, n, hn, hw.symm⟩
      · obtain ⟨a, b⟩ := ih h
        exact ⟨by simp [a], b⟩

theorem hashInRange_of_entry (s : Synonyms) (ht : TableOK s) (p : Nat) (n : WordNode)
    (hn : s.heap[p]? = some n) : HashInRange n.word := by
  obtain ⟨chain, hb, _⟩ := ht.in_chain p n hn
  have := bucket_eq_some s _ chain hb
  exact ⟨this.1, this.2.1⟩

theorem find_known (s : Synonyms) (ht : TableOK s) (p : Nat) (n : WordNode)
    (hn : s.heap[p]? = some n) : FindWordNode s n.word = some (some p) := by
  obtain ⟨chain, hb, hp⟩ := ht.in_chain p n hn
  have hb2 := bucket_eq_some s _ chain hb
  have hv := ht.chain_ok _ chain hb2.2.2
  obtain ⟨res, hres, h1, h2⟩ := findInChain_spec s.heap n.word chain
    (fun q hq => let ⟨m, hm, _⟩ := hv q hq; ⟨m, hm⟩)
  unfold FindWordNode
  rw [hb]
  simp only [hres]
  cases res with
  | none => exact absurd rfl (h1 rfl p hp n hn)
  | some q =>
    obtain ⟨_, m, hm, hmw⟩ := h2 q rfl
    rw [ht.word_inj q p m n hm hn hmw]

theorem find_unknown (s : Synonyms) (ht : TableOK s) (w : Word) (hw : HashInRange w)
    (hk : ¬ Known s w) : FindWordNode s w = some none := by
  obtain ⟨chain, hb, hb2⟩ := bucket_isSome s ht.table_len w hw
  have hv := ht.chain_ok _ chain hb2
  obtain ⟨res, hres, h1, h2⟩ := findInChain_spec s.heap w chain
    (fun q hq => let ⟨m, hm, _⟩ := hv q hq; ⟨m, hm⟩)
  unfold FindWordNode
  rw [hb]
  simp only [hres]
  cases res with
  | none => rfl
  | some q =>
    obtain ⟨_, m, hm, hmw⟩ := h2 q rfl
    exact absurd ⟨q, m, hm, hmw⟩ hk

theorem find_some_entry (s : Synonyms) (w : Word) (q : Nat)
    (h : FindWordNode s w = some (some q)) :
    ∃ n : WordNode, s.heap[q]? = some n ∧ n.word = w := by
  unfold FindWordNode at h
  split at h
  · cases h
  · exact (findInChain_some _ _ _ _ h).2

theorem find_hashInRange (s : Synonyms) (w : Word) (res : Option Nat)
    (h : FindWordNode s w = some res) : HashInRange w := by
  unfold FindWordNode at h
  split at h
  · cases h
  · next chain hb =>
    have := bucket_eq_some s _ chain hb
    exact ⟨this.1, this.2.1⟩

theorem find_none_unknown (s : Synonyms) (ht : TableOK s) (w : Word)
    (h : FindWordNode s w = some none) : ¬ Known s w := by
  rintro ⟨p, n, hn, rfl⟩
  rw [find_known s ht p n hn] at h
  cases h

/-! ### Insertion and the representative of an entry -/

theorem getElem?_snoc {α : Type} (l : List α) (x : α) (p : Nat) (n : α) :
    (l ++ [x])[p]? = some n ↔ l[p]? = some n ∨ (p = l.length ∧ n = x) := by
  rw [List.getElem?_append]
  split
  · next h =>
    constructor
    · exact fun h1 => Or.inl h1
    · rintro (h1 | ⟨h1, _⟩)
      · exact h1
      · omega
  · next h =>
    have hnone : l[p]? = none := List.getElem?_eq_none (by omega)
    constructor
    · intro h1
      right
      by_cases hp : p = l.length
      · subst hp; simp at h1; exact ⟨rfl, h1.symm⟩
      · have : ([x] : List α)[p - l.length]? = none :=
          List.getElem?_eq_none (by simp; omega)
        rw [this] at h1; cases h1
    · rintro (h1 | ⟨h1, h2⟩)
      · rw [hnone] at h1; cases h1
      · subst h1; subst h2; simp

theorem getElem?_lt {α : Type} (l : List α) (p : Nat) (n : α) (h : l[p]? = some n) :
    p < l.length := by
  obtain ⟨h, _⟩ := List.getElem?_eq_some.1 h
  exact h

theorem synonyms_init_wf : WF synonyms_init := by
  refine ⟨⟨?_, ?_, ?_, ?_⟩, ⟨?_, ?_⟩⟩
  · simp [synonyms_init]
  · intro i chain h p hp
    simp only [synonyms_init, List.getElem?_replicate] at h
    split at h
    · cases h; cases hp
    · cases h
  · intro p n h; simp [synonyms_init] at h
  · intro p q n m h; simp [synonyms_init] at h
  · intro p n h; simp [synonyms_init] at h
  · intro p n h; simp [synonyms_init] at h

theorem forest_snoc (heap : List WordNode) (hf : Forest heap) (w : Word) :
    Forest (heap ++ [GetNewWordNode w]) := by
  constructor
  · intro r nr hr hrep
    rcases (getElem?_snoc _ _ _ _).1 hr with h | ⟨_, rfl⟩
    · obtain ⟨a, b, c, d⟩ := hf.rep_ok r nr h hrep
      refine ⟨a, b, c, fun m hm => ?_⟩
      obtain ⟨nm, h1, h2, h3⟩ := d m hm
      exact ⟨nm, (getElem?_snoc _ _ _ _).2 (Or.inl h1), h2, h3⟩
    · simp [GetNewWordNode]
  · intro m nm hm hrep
    rcases (getElem?_snoc _ _ _ _).1 hm with h | ⟨_, rfl⟩
    · obtain ⟨a, b, r, nr, h1, h2, h3, h4⟩ := hf.mem_ok m nm h hrep
      exact ⟨a, b, r, nr, h1, (getElem?_snoc _ _ _ _).2 (Or.inl h2), h3, h4⟩
    · simp [GetNewWordNode] at hrep

theorem insert_spec (s : Synonyms) (hs : WF s) (w : Word) (hw : HashInRange w)
    (hk : ¬ Known s w) :
    ∃ s1, InsertWordNode s w = some (s1, s.heap.length) ∧
      s1.heap = s.heap ++ [GetNewWordNode w] ∧ WF s1 := by
  obtain ⟨chain, hb, hb2⟩ := bucket_isSome s hs.tbl.table_len w hw
  have hklt : (getHashVal w).toNat < s.table.length := getElem?_lt _ _ _ hb2
  have hcast : (((getHashVal w).toNat : Nat) : Int) = getHashVal w := Int.toNat_of_nonneg hw.1
  refine ⟨_, by unfold InsertWordNode; rw [hb], rfl, ⟨⟨?_, ?_, ?_, ?_⟩, forest_snoc _ hs.forest w⟩⟩
  · simp [hs.tbl.table_len]
  · intro i ch hch p hp
    rw [List.getElem?_set] at hch
    by_cases hi : (getHashVal w).toNat = i
    · rw [if_pos hi, if_pos hklt] at hch
      subst hi
      cases hch
      rcases List.mem_append.1 hp with hp | hp
      · obtain ⟨n, h1, h2⟩ := hs.tbl.chain_ok _ chain hb2 p hp
        exact ⟨n, (getElem?_snoc _ _ _ _).2 (Or.inl h1), h2⟩
      · simp only [List.mem_singleton] at hp
        subst hp
        exact ⟨GetNewWordNode w, by simp, by simp [GetNewWordNode, hcast]⟩
    · rw [if_neg hi] at hch
      obtain ⟨n, h1, h2⟩ := hs.tbl.chain_ok _ ch hch p hp
      exact ⟨n, (getElem?_snoc _ _ _ _).2 (Or.inl h1), h2⟩
  · intro p n hn
    have hkey : ∀ v : Word, HashInRange v → ∀ ch0, bucket s (getHashVal v) = some ch0 →
        ∃ ch1, bucket { heap := s.heap ++ [GetNewWordNode w],
                        table := s.table.set (getHashVal w).toNat (chain ++ [s.heap.length]) }
                  (getHashVal v) = some ch1 ∧ (∀ q ∈ ch0, q ∈ ch1) ∧
                  (getHashVal v = getHashVal w → s.heap.length ∈ ch1) := by
      intro v hv ch0 h0
      have h0' := (bucket_eq_some s _ ch0 h0).2.2
      unfold bucket
      rw [if_pos (show 0 ≤ getHashVal v ∧ getHashVal v < (TABLE_SIZE : Int) from hv)]
      simp only [List.getElem?_set]
      by_cases he : (getHashVal w).toNat = (getHashVal v).toNat
      · rw [if_pos he, if_pos hklt]
        rw [← he, hb2] at h0'
        cases h0'
        exact ⟨_, rfl, fun q hq => by simp [hq], fun _ => by simp⟩
      · rw [if_neg he]
        refine ⟨ch0, h0', fun q hq => hq, fun h => ?_⟩
        rw [h] at he
        exact absurd rfl he
    rcases (getElem?_snoc _ _ _ _).1 hn with h | ⟨hp, rfl⟩
    · obtain ⟨ch0, h0, hp0⟩ := hs.tbl.in_chain p n h
      obtain ⟨ch1, h1, h2, _⟩ := hkey n.word (hashInRange_of_entry s hs.tbl p n h) ch0 h0
      exact ⟨ch1, h1, h2 p hp0⟩
    · obtain ⟨ch1, h1, _, h3⟩ := hkey w hw chain hb
      subst hp
      exact ⟨ch1, h1, h3 rfl⟩
  · intro p q n m hn hm hnm
    rcases (getElem?_snoc _ _ _ _).1 hn with h1 | ⟨hp, rfl⟩ <;>
    rcases (getElem?_snoc _ _ _ _).1 hm with h2 | ⟨hq, rfl⟩
    · exact hs.tbl.word_inj p q n m h1 h2 hnm
    · exact absurd ⟨p, n, h1, hnm⟩ hk
    · exact absurd ⟨q, m, h2, hnm.symm⟩ hk
    · rw [hp, hq]

theorem root_rep (heap : List WordNode) (p : Nat) (n : WordNode) (k : Nat)
    (hn : heap[p]? = some n) (hr : n.isRepresentative = true) :
    GetRepresentative heap (k + 1) (some p) = some p := by
  simp [GetRepresentative, hn, hr]

theorem root_mem (heap : List WordNode) (hf : Forest heap) (p : Nat) (n : WordNode) (k : Nat)
    (hn : heap[p]? = some n) (hr : n.isRepresentative = false) :
    ∃ r, n.parent = some r ∧ GetRepresentative heap (k + 2) (some p) = some r := by
  obtain ⟨_, _, r, nr, h1, h2, h3, _⟩ := hf.mem_ok p n hn hr
  refine ⟨r, h1, ?_⟩
  simp [GetRepresentative, hn, hr, h1, h2, h3]

/-- The representative of an entry of a flat forest: the entry itself, or
its parent. -/
theorem root_iff (heap : List WordNode) (hf : Forest heap) (p r : Nat) :
    GetRepresentative heap (heap.length + 1) (some p) = some r ↔
      ∃ n : WordNode, heap[p]? = some n ∧
        ((n.isRepresentative = true ∧ r = p) ∨
         (n.isRepresentative = false ∧ n.parent = some r)) := by
  constructor
  · intro h
    cases hn : heap[p]? with
    | none => simp [GetRepresentative, hn] at h
    | some n =>
      refine ⟨n, rfl, ?_⟩
      have hlen := getElem?_lt _ _ _ hn
      obtain ⟨k, hk⟩ : ∃ k, heap.length = k + 1 := ⟨heap.length - 1, by omega⟩
      rw [hk] at h
      cases hr : n.isRepresentative with
      | true =>
        rw [root_rep heap p n _ hn hr] at h
        cases h; exact Or.inl ⟨rfl, rfl⟩
      | false =>
        obtain ⟨r', h1, h2⟩ := root_mem heap hf p n k hn hr
        rw [h2] at h
        cases h; exact Or.inr ⟨rfl, h1⟩
  · rintro ⟨n, hn, h⟩
    have hlen := getElem?_lt _ _ _ hn
    obtain ⟨k, hk⟩ : ∃ k, heap.length = k + 1 := ⟨heap.length - 1, by omega⟩
    rw [hk]
    rcases h with ⟨hr, rfl⟩ | ⟨hr, hp⟩
    · exact root_rep heap _ n _ hn hr
    · obtain ⟨r', h1, h2⟩ := root_mem heap hf p n k hn hr
      rw [h2]; rw [hp] at h1; cases h1; rfl

theorem root_total (heap : List WordNode) (hf : Forest heap) (p : Nat) (n : WordNode)
    (hn : heap[p]? = some n) :
    ∃ (r : Nat) (nr : WordNode), GetRepresentative heap (heap.length + 1) (some p) = some r ∧
      heap[r]? = some nr ∧ nr.isRepresentative = true ∧ (r = p ∨ p ∈ nr.list) := by
  cases hr : n.isRepresentative with
  | true => exact ⟨p, n, (root_iff heap hf p p).2 ⟨n, hn, Or.inl ⟨hr, rfl⟩⟩, hn, hr, Or.inl rfl⟩
  | false =>
    obtain ⟨_, _, r, nr, h1, h2, h3, h4⟩ := hf.mem_ok p n hn hr
    exact ⟨r, nr, (root_iff heap hf p r).2 ⟨n, hn, Or.inr ⟨hr, h1⟩⟩, h2, h3, Or.inr h4⟩

/-! ### `UpdateParent` and the absorbing branch of `AddSynonyms` -/

theorem updateParent_spec (p : Nat) (l : List Nat) :
    ∀ heap : List WordNode, (∀ m ∈ l, ∃ n : WordNode, heap[m]? = some n) →
      ∃ heap', UpdateParent heap p l = some heap' ∧ heap'.length = heap.length ∧
        ∀ q, heap'[q]? =
          if q ∈ l then (heap[q]?).map (fun n => { n with parent := some p }) else heap[q]? := by
  induction l with
  | nil => intro heap _; exact ⟨heap, rfl, rfl, fun q => by simp⟩
  | cons m rest ih =>
    intro heap hv
    obtain ⟨n, hn⟩ := hv m (by simp)
    have hm := getElem?_lt _ _ _ hn
    obtain ⟨heap', h1, h2, h3⟩ := ih (heap.set m { n with parent := some p }) (by
      intro x hx
      obtain ⟨nx, hnx⟩ := hv x (by simp [hx])
      rw [List.getElem?_set]
      by_cases hmx : m = x
      · rw [if_pos hmx, if_pos hm]; exact ⟨_, rfl⟩
      · rw [if_neg hmx]; exact ⟨nx, hnx⟩)
    refine ⟨heap', by simp only [UpdateParent, hn]; exact h1, by simpa using h2, ?_⟩
    intro q
    rw [h3 q, List.getElem?_set]
    by_cases hmq : m = q
    · subst hmq
      simp [hm, hn]
    · have hqm : ¬ q = m := fun h => hmq h.symm
      simp [hmq, hqm]

/-- The nodes after `a` has absorbed `b`, entry by entry. -/
theorem absorb_spec (heap : List WordNode) (a b : Nat) (na nb : WordNode) (hab : a ≠ b)
    (ha : heap[a]? = some na) (hb : heap[b]? = some nb)
    (hv : ∀ m ∈ nb.list, (∃ n : WordNode, heap[m]? = some n) ∧ m ≠ a ∧ m ≠ b) :
    ∃ heap', absorb heap a b = some heap' ∧ heap'.length = heap.length ∧
      heap'[a]? = some { na with
        rank := na.rank + (nb.rank + 1),
        list := if na.list = [] then [b] else na.list ++ [b] ++ nb.list } ∧
      heap'[b]? = some { nb with
        parent := some a, isRepresentative := false, rank := 0, list := [] } ∧
      ∀ q, q ≠ a → q ≠ b → heap'[q]? =
        if q ∈ nb.list then (heap[q]?).map (fun n => { n with parent := some a })
        else heap[q]? := by
  have hla := getElem?_lt _ _ _ ha
  have hlb := getElem?_lt _ _ _ hb
  have hba : b ≠ a := fun h => hab h.symm
  have hanb : a ∉ nb.list := fun h => (hv a h).2.1 rfl
  have hbnb : b ∉ nb.list := fun h => (hv b h).2.2 rfl
  obtain ⟨h4, hu1, hu2, hu3⟩ := updateParent_spec a nb.list
    (((heap.set b { nb with parent := some a, isRepresentative := false }).set a
        { na with rank := na.rank + (nb.rank + 1) }).set b
        { nb with parent := some a, isRepresentative := false, rank := 0 }) (by
      intro m hm
      obtain ⟨⟨n, hn⟩, hma, hmb⟩ := hv m hm
      refine ⟨n, ?_⟩
      rw [List.getElem?_set, if_neg (Ne.symm hmb), List.getElem?_set, if_neg (Ne.symm hma),
        List.getElem?_set, if_neg (Ne.symm hmb)]
      exact hn)
  have h4a : h4[a]? = some { na with rank := na.rank + (nb.rank + 1) } := by
    rw [hu3 a, if_neg hanb, List.getElem?_set, if_neg hba, List.getElem?_set]
    simp [hlb, hla]
  have h4b : h4[b]? = some { nb with parent := some a, isRepresentative := false, rank := 0 } := by
    rw [hu3 b, if_neg hbnb, List.getElem?_set]
    simp [hlb, hla]
  have h4len : h4.length = heap.length := by simpa using hu2
  have h4q : ∀ q, q ≠ a → q ≠ b → h4[q]? =
      if q ∈ nb.list then (heap[q]?).map (fun n => { n with parent := some a })
      else heap[q]? := by
    intro q hqa hqb
    rw [hu3 q, List.getElem?_set, if_neg (Ne.symm hqb), List.getElem?_set, if_neg (Ne.symm hqa),
      List.getElem?_set, if_neg (Ne.symm hqb)]
  unfold absorb
  simp only [hb]
  have e1 : (heap.set b { nb with parent := some a, isRepresentative := false })[a]? = some na := by
    rw [List.getElem?_set, if_neg hba]; exact ha
  have e2 : (heap.set b { nb with parent := some a, isRepresentative := false })[b]? =
      some { nb with parent := some a, isRepresentative := false } := by
    rw [List.getElem?_set]; simp [hlb]
  simp only [e1, e2]
  have e3 : ((heap.set b { nb with parent := some a, isRepresentative := false }).set a
      { na with rank := na.rank + (nb.rank + 1) })[b]? =
      some { nb with parent := some a, isRepresentative := false } := by
    rw [List.getElem?_set, if_neg hab]; exact e2
  simp only [e3]
  have e4 : (((heap.set b { nb with parent := some a, isRepresentative := false }).set a
      { na with rank := na.rank + (nb.rank + 1) }).set b
      { nb with parent := some a, isRepresentative := false, rank := 0 })[b]? =
      some { nb with parent := some a, isRepresentative := false, rank := 0 } := by
    rw [List.getElem?_set]; simp [hlb]
  simp only [e4, hu1]
  simp only [h4a, h4b]
  have e5 : ∀ na5 : WordNode, (h4.set a na5)[b]? =
      some { nb with parent := some a, isRepresentative := false, rank := 0 } := by
    intro na5
    rw [List.getElem?_set, if_neg hab]; exact h4b
  have fin : ∀ na5 : WordNode, ∃ heap',
      some ((h4.set a na5).set b
        { nb with parent := some a, isRepresentative := false, rank := 0, list := [] }) =
        some heap' ∧ heap'.length = heap.length ∧ heap'[a]? = some na5 ∧
      heap'[b]? = some { nb with
        parent := some a, isRepresentative := false, rank := 0, list := [] } ∧
      ∀ q, q ≠ a → q ≠ b → heap'[q]? =
        if q ∈ nb.list then (heap[q]?).map (fun n => { n with parent := some a })
        else heap[q]? := by
    intro na5
    refine ⟨_, rfl, by simp [h4len], ?_, ?_, ?_⟩
    · rw [List.getElem?_set, if_neg hba, List.getElem?_set]
      simp [h4len, hla]
    · rw [List.getElem?_set]
      simp [h4len, hlb]
    · intro q hqa hqb
      rw [List.getElem?_set, if_neg (Ne.symm hqb), List.getElem?_set, if_neg (Ne.symm hqa)]
      exact h4q q hqa hqb
  by_cases hnl : na.list = []
  · simp only [if_pos hnl, e5]
    exact fin _
  · simp only [if_neg hnl, e5]
    exact fin _

/-! ### The forest after an absorption -/

theorem rep_ne_mem (heap : List WordNode) (hf : Forest heap) (r m : Nat) (nr ntop : WordNode)
    (hr : heap[r]? = some nr) (hrr : nr.isRepresentative = true) (hm : m ∈ nr.list)
    (p : Nat) (hp : heap[p]? = some ntop) (hpr : ntop.isRepresentative = true) : m ≠ p := by
  rintro rfl
  obtain ⟨nm, h1, h2, _⟩ := (hf.rep_ok r nr hr hrr).2.2.2 m hm
  rw [hp] at h1; cases h1
  rw [hpr] at h2; cases h2

theorem absorb_absorbed (heap : List WordNode) (hf : Forest heap) (a b : Nat) (na nb : WordNode)
    (hab : a ≠ b) (ha : heap[a]? = some na) (hb : heap[b]? = some nb)
    (hra : na.isRepresentative = true) (hrb : nb.isRepresentative = true)
    (hrank : nb.rank ≤ na.rank) :
    ∃ heap', absorb heap a b = some heap' ∧ Absorbed heap heap' a b na nb := by
  obtain ⟨_, hA2, _, _⟩ := hf.rep_ok a na ha hra
  obtain ⟨_, hB2, _, hB4⟩ := hf.rep_ok b nb hb hrb
  have hv : ∀ m ∈ nb.list, (∃ n : WordNode, heap[m]? = some n) ∧ m ≠ a ∧ m ≠ b := by
    intro m hm
    obtain ⟨nm, h1, _, _⟩ := hB4 m hm
    exact ⟨⟨nm, h1⟩, rep_ne_mem heap hf b m nb na hb hrb hm a ha hra,
      rep_ne_mem heap hf b m nb nb hb hrb hm b hb hrb⟩
  obtain ⟨heap', h1, h2, h3, h4, h5⟩ := absorb_spec heap a b na nb hab ha hb hv
  have hlist : (if na.list = [] then [b] else na.list ++ [b] ++ nb.list) =
      na.list ++ [b] ++ nb.list := by
    split
    · next h =>
      have h0 : nb.list.length = 0 := by rw [h] at hA2; simp at hA2; omega
      rw [h, List.length_eq_zero.1 h0]; rfl
    · rfl
  rw [hlist] at h3
  refine ⟨heap', h1, ⟨h2, h3, h4, ?_, ?_⟩⟩
  · intro q nq hq hnq
    rw [h5 q (hv q hq).2.1 (hv q hq).2.2, if_pos hq, hnq]; rfl
  · intro q hqa hqb hq
    rw [h5 q hqa hqb, if_neg hq]

/-- Every entry after the absorption, with the entry it comes from. -/
theorem absorbed_cases (heap heap' : List WordNode) (a b : Nat) (na nb : WordNode)
    (hab : a ≠ b) (ha : heap[a]? = some na) (hb : heap[b]? = some nb)
    (h : Absorbed heap heap' a b na nb) (q : Nat) (nq' : WordNode) (hq : heap'[q]? = some nq') :
    (q = a ∧ nq' = { na with rank := na.rank + (nb.rank + 1),
                             list := na.list ++ [b] ++ nb.list }) ∨
    (q = b ∧ nq' = { nb with parent := some a, isRepresentative := false,
                             rank := 0, list := [] }) ∨
    (q ≠ a ∧ q ≠ b ∧ q ∈ nb.list ∧
      ∃ nq : WordNode, heap[q]? = some nq ∧ nq' = { nq with parent := some a }) ∨
    (q ≠ a ∧ q ≠ b ∧ q ∉ nb.list ∧ heap[q]? = some nq') := by
  by_cases hqa : q = a
  · subst hqa; rw [h.at_a] at hq; cases hq; exact Or.inl ⟨rfl, rfl⟩
  by_cases hqb : q = b
  · subst hqb; rw [h.at_b] at hq; cases hq; exact Or.inr (Or.inl ⟨rfl, rfl⟩)
  by_cases hqm : q ∈ nb.list
  · have hlt : q < heap.length := by rw [← h.len]; exact getElem?_lt _ _ _ hq
    obtain ⟨nq, hnq⟩ : ∃ nq : WordNode, heap[q]? = some nq := ⟨heap[q], by simp [hlt]⟩
    rw [h.at_mem q nq hqm hnq] at hq; cases hq
    exact Or.inr (Or.inr (Or.inl ⟨hqa, hqb, hqm, nq, hnq, rfl⟩))
  · rw [h.at_other q hqa hqb hqm] at hq
    exact Or.inr (Or.inr (Or.inr ⟨hqa, hqb, hqm, hq⟩))

theorem absorbed_word (heap heap' : List WordNode) (a b : Nat) (na nb : WordNode)
    (hab : a ≠ b) (ha : heap[a]? = some na) (hb : heap[b]? = some nb)
    (h : Absorbed heap heap' a b na nb) :
    heap'.map WordNode.word = heap.map WordNode.word := by
  apply List.ext_getElem?
  intro q
  rw [List.getElem?_map, List.getElem?_map]
  cases hq : heap'[q]? with
  | none =>
    have : heap[q]? = none := by
      rw [List.getElem?_eq_none_iff] at hq ⊢
      rw [← h.len]; exact hq
    rw [this]
  | some nq' =>
    rcases absorbed_cases heap heap' a b na nb hab ha hb h q nq' hq with
      ⟨rfl, rfl⟩ | ⟨rfl, rfl⟩ | ⟨_, _, _, nq, h1, rfl⟩ | ⟨_, _, _, h1⟩
    · rw [ha]; rfl
    · rw [hb]; rfl
    · rw [h1]; rfl
    · rw [h1]

theorem absorbed_forest (heap heap' : List WordNode) (hf : Forest heap) (a b : Nat)
    (na nb : WordNode) (hab : a ≠ b) (ha : heap[a]? = some na) (hb : heap[b]? = some nb)
    (hra : na.isRepresentative = true) (hrb : nb.isRepresentative = true)
    (h : Absorbed heap heap' a b na nb) : Forest heap' := by
  obtain ⟨hA1, hA2, hA3, hA4⟩ := hf.rep_ok a na ha hra
  obtain ⟨hB1, hB2, hB3, hB4⟩ := hf.rep_ok b nb hb hrb
  -- the members of a representative other than `b` are untouched
  have hkeep : ∀ (r : Nat) (nr : WordNode), heap[r]? = some nr → nr.isRepresentative = true →
      r ≠ b → ∀ m ∈ nr.list, ∃ nm : WordNode, heap'[m]? = some nm ∧
        nm.isRepresentative = false ∧ nm.parent = some r := by
    intro r nr hr hrr hrb' m hm
    obtain ⟨nm, h1, h2, h3⟩ := (hf.rep_ok r nr hr hrr).2.2.2 m hm
    have hma := rep_ne_mem heap hf r m nr na hr hrr hm a ha hra
    have hmb := rep_ne_mem heap hf r m nr nb hr hrr hm b hb hrb
    have hmn : m ∉ nb.list := by
      intro hmem
      obtain ⟨nm', h1', _, h3'⟩ := hB4 m hmem
      rw [h1] at h1'; cases h1'
      rw [h3] at h3'; cases h3'
      exact hrb' rfl
    exact ⟨nm, by rw [h.at_other m hma hmb hmn]; exact h1, h2, h3⟩
  have hmoved : ∀ m ∈ nb.list, ∃ nm : WordNode, heap'[m]? = some nm ∧
      nm.isRepresentative = false ∧ nm.parent = some a ∧ nm.rank = 0 ∧ nm.list = [] := by
    intro m hm
    obtain ⟨nm, h1, h2, _⟩ := hB4 m hm
    obtain ⟨h4, h5, _⟩ := hf.mem_ok m nm h1 h2
    exact ⟨_, h.at_mem m nm hm h1, h2, rfl, h4, h5⟩
  constructor
  · intro r nr' hr hrr
    rcases absorbed_cases heap heap' a b na nb hab ha hb h r nr' hr with
      ⟨rfl, rfl⟩ | ⟨rfl, rfl⟩ | ⟨_, _, hmem, nq, h1, rfl⟩ | ⟨hra', hrb', hmem, h1⟩
    · refine ⟨hA1, ?_, ?_, ?_⟩
      · simp [hA2, hB2]
      · have hdis : ∀ x ∈ na.list, x ∉ nb.list := by
          intro x hx hx'
          obtain ⟨n1, e1, _, e3⟩ := hA4 x hx
          obtain ⟨n2, e1', _, e3'⟩ := hB4 x hx'
          rw [e1] at e1'; cases e1'
          rw [e3] at e3'; cases e3'
          exact hab rfl
        have hb1 : b ∉ na.list := fun hx =>
          rep_ne_mem heap hf r b na nb ha hra hx b hb hrb rfl
        have hb2 : b ∉ nb.list := fun hx =>
          rep_ne_mem heap hf b b nb nb hb hrb hx b hb hrb rfl
        rw [List.append_assoc, List.nodup_append]
        refine ⟨hA3, ?_, ?_⟩
        · rw [List.singleton_append, List.nodup_cons]
          exact ⟨hb2, hB3⟩
        · intro x hx hx'
          rcases List.mem_append.1 hx' with hx' | hx'
          · rw [List.mem_singleton] at hx'; subst hx'; exact hb1 hx
          · exact hdis x hx hx'
      · intro m hm
        simp only [List.mem_append, List.mem_singleton] at hm
        rcases hm with (hm | rfl) | hm
        · exact hkeep r na ha hra hab m hm
        · exact ⟨_, h.at_b, rfl, rfl⟩
        · obtain ⟨nm, e1, e2, e3, _⟩ := hmoved m hm
          exact ⟨nm, e1, e2, e3⟩
    · cases hrr
    · obtain ⟨nm, e1, e2, _⟩ := hB4 r hmem
      rw [h1] at e1; cases e1
      have hrr' : nq.isRepresentative = true := hrr
      rw [e2] at hrr'
      cases hrr'
    · obtain ⟨e1, e2, e3, _⟩ := hf.rep_ok r nr' h1 hrr
      exact ⟨e1, e2, e3, hkeep r nr' h1 hrr hrb'⟩
  · intro m nm' hm hmr
    rcases absorbed_cases heap heap' a b na nb hab ha hb h m nm' hm with
      ⟨rfl, rfl⟩ | ⟨rfl, rfl⟩ | ⟨_, _, hmem, nq, h1, rfl⟩ | ⟨hma, hmb, hmem, h1⟩
    · have hmr' : na.isRepresentative = false := hmr
      rw [hra] at hmr'
      cases hmr'
    · exact ⟨rfl, rfl, a, _, rfl, h.at_a, hra, by simp⟩
    · obtain ⟨nm, e1, e2, e3, e4, e5⟩ := hmoved m hmem
      rw [hm] at e1; cases e1
      exact ⟨e4, e5, a, _, rfl, h.at_a, hra, by simp [hmem]⟩
    · obtain ⟨e1, e2, r, nr, e3, e4, e5, e6⟩ := hf.mem_ok m nm' h1 hmr
      refine ⟨e1, e2, ?_⟩
      have hrb' : r ≠ b := by
        rintro rfl
        rw [hb] at e4; cases e4
        exact hmem e6
      by_cases hra' : r = a
      · subst hra'
        rw [ha] at e4; cases e4
        exact ⟨r, _, e3, h.at_a, hra, by simp [e6]⟩
      · have hrn : r ∉ nb.list := fun hx =>
          rep_ne_mem heap hf b r nb nr hb hrb hx r e4 e5 rfl
        exact ⟨r, nr, e3, by rw [h.at_other r hra' hrb' hrn]; exact e4, e5, e6⟩

/-! ### Representatives after an absorption; entries with unchanged texts -/

theorem absorbedRoot_fwd (heap heap' : List WordNode) (hf : Forest heap) (hf' : Forest heap')
    (a b : Nat) (na nb : WordNode) (hab : a ≠ b) (ha : heap[a]? = some na)
    (hb : heap[b]? = some nb) (hra : na.isRepresentative = true)
    (hrb : nb.isRepresentative = true) (h : Absorbed heap heap' a b na nb) (q r' : Nat)
    (hq : GetRepresentative heap' (heap'.length + 1) (some q) = some r') :
    ∃ r, GetRepresentative heap (heap.length + 1) (some q) = some r ∧
      r' = if r = b then a else r := by
  obtain ⟨nq', hnq', hcase⟩ := (root_iff heap' hf' q r').1 hq
  obtain ⟨_, _, _, hB4⟩ := hf.rep_ok b nb hb hrb
  rcases absorbed_cases heap heap' a b na nb hab ha hb h q nq' hnq' with
    ⟨rfl, rfl⟩ | ⟨rfl, rfl⟩ | ⟨_, _, hmem, nq, h1, rfl⟩ | ⟨hqa, hqb, hmem, h1⟩
  · refine ⟨q, (root_iff heap hf q q).2 ⟨na, ha, Or.inl ⟨hra, rfl⟩⟩, ?_⟩
    rw [if_neg hab]
    rcases hcase with ⟨_, e⟩ | ⟨e, _⟩
    · exact e
    · have e' : na.isRepresentative = false := e
      rw [hra] at e'; cases e'
  · refine ⟨q, (root_iff heap hf q q).2 ⟨nb, hb, Or.inl ⟨hrb, rfl⟩⟩, ?_⟩
    rw [if_pos rfl]
    rcases hcase with ⟨e, _⟩ | ⟨_, e⟩
    · cases e
    · cases e; rfl
  · obtain ⟨nm, e1, e2, e3⟩ := hB4 q hmem
    rw [h1] at e1; cases e1
    refine ⟨b, (root_iff heap hf q b).2 ⟨nq, h1, Or.inr ⟨e2, e3⟩⟩, ?_⟩
    rw [if_pos rfl]
    rcases hcase with ⟨e, _⟩ | ⟨_, e⟩
    · have e' : nq.isRepresentative = true := e
      rw [e2] at e'; cases e'
    · cases e; rfl
  · rcases hcase with ⟨e, rfl⟩ | ⟨e, e'⟩
    · exact ⟨r', (root_iff heap hf r' r').2 ⟨nq', h1, Or.inl ⟨e, rfl⟩⟩, by rw [if_neg hqb]⟩
    · refine ⟨r', (root_iff heap hf q r').2 ⟨nq', h1, Or.inr ⟨e, e'⟩⟩, ?_⟩
      have hne : r' ≠ b := by
        rintro rfl
        obtain ⟨_, _, r, nr, e3, e4, _, e6⟩ := hf.mem_ok q nq' h1 e
        rw [e'] at e3; cases e3
        rw [hb] at e4; cases e4
        exact hmem e6
      rw [if_neg hne]

theorem absorbed_root (heap heap' : List WordNode) (hf : Forest heap) (hf' : Forest heap')
    (a b : Nat) (na nb : WordNode) (hab : a ≠ b) (ha : heap[a]? = some na)
    (hb : heap[b]? = some nb) (hra : na.isRepresentative = true)
    (hrb : nb.isRepresentative = true) (h : Absorbed heap heap' a b na nb) (q : Nat) :
    GetRepresentative heap' (heap'.length + 1) (some q) =
      (GetRepresentative heap (heap.length + 1) (some q)).map
        (fun r => if r = b then a else r) := by
  cases hq' : heap'[q]? with
  | none =>
    have hq : heap[q]? = none := by
      rw [List.getElem?_eq_none_iff] at hq' ⊢
      rw [← h.len]; exact hq'
    simp [GetRepresentative, hq, hq']
  | some nq' =>
    obtain ⟨r', _, e1, _⟩ := root_total heap' hf' q nq' hq'
    obtain ⟨r, e2, e3⟩ := absorbedRoot_fwd heap heap' hf hf' a b na nb hab ha hb hra hrb h q r' e1
    rw [e1, e2, e3]; rfl

theorem findInChain_congr (h1 h2 : List WordNode) (w : Word)
    (hw : h1.map WordNode.word = h2.map WordNode.word) (chain : List Nat) :
    findInChain h1 w chain = findInChain h2 w chain := by
  have hpt : ∀ p : Nat, (h1[p]?).map WordNode.word = (h2[p]?).map WordNode.word := by
    intro p
    rw [← List.getElem?_map, ← List.getElem?_map, hw]
  induction chain with
  | nil => rfl
  | cons p rest ih =>
    have := hpt p
    simp only [findInChain]
    cases e1 : h1[p]? with
    | none =>
      cases e2 : h2[p]? with
      | none => rfl
      | some n2 => rw [e1, e2] at this; cases this
    | some n1 =>
      cases e2 : h2[p]? with
      | none => rw [e1, e2] at this; cases this
      | some n2 =>
        rw [e1, e2] at this
        simp only [Option.map_some', Option.some.injEq] at this
        simp only [this, ih]

theorem find_congr (s : Synonyms) (h : List WordNode)
    (hw : h.map WordNode.word = s.heap.map WordNode.word) (w : Word) :
    FindWordNode { s with heap := h } w = FindWordNode s w := by
  unfold FindWordNode bucket
  simp only
  split
  · rfl
  · exact findInChain_congr _ _ _ hw _

theorem tableOK_congr (s : Synonyms) (ht : TableOK s) (h : List WordNode)
    (hw : h.map WordNode.word = s.heap.map WordNode.word) :
    TableOK { s with heap := h } := by
  have hpt : ∀ p : Nat, (h[p]?).map WordNode.word = (s.heap[p]?).map WordNode.word := by
    intro p
    rw [← List.getElem?_map, ← List.getElem?_map, hw]
  have hto : ∀ (p : Nat) (n : WordNode), h[p]? = some n →
      ∃ n0 : WordNode, s.heap[p]? = some n0 ∧ n0.word = n.word := by
    intro p n hn
    have := hpt p
    rw [hn] at this
    cases e : s.heap[p]? with
    | none => rw [e] at this; cases this
    | some n0 =>
      rw [e] at this
      simp only [Option.map_some', Option.some.injEq] at this
      exact ⟨n0, rfl, this.symm⟩
  have hfrom : ∀ (p : Nat) (n0 : WordNode), s.heap[p]? = some n0 →
      ∃ n : WordNode, h[p]? = some n ∧ n.word = n0.word := by
    intro p n0 hn
    have := hpt p
    rw [hn] at this
    cases e : h[p]? with
    | none => rw [e] at this; cases this
    | some n =>
      rw [e] at this
      simp only [Option.map_some', Option.some.injEq] at this
      exact ⟨n, rfl, this⟩
  refine ⟨ht.table_len, ?_, ?_, ?_⟩
  · intro i chain hc p hp
    obtain ⟨n0, e1, e2⟩ := ht.chain_ok i chain hc p hp
    obtain ⟨n, e3, e4⟩ := hfrom p n0 e1
    exact ⟨n, e3, by rw [e4]; exact e2⟩
  · intro p n hn
    obtain ⟨n0, e1, e2⟩ := hto p n hn
    obtain ⟨chain, e3, e4⟩ := ht.in_chain p n0 e1
    exact ⟨chain, by rw [← e2]; exact e3, e4⟩
  · intro p q n m hn hm hnm
    obtain ⟨n0, e1, e2⟩ := hto p n hn
    obtain ⟨m0, e3, e4⟩ := hto q m hm
    exact ht.word_inj p q n0 m0 e1 e3 (by rw [e2, e4, hnm])

theorem known_congr (s : Synonyms) (h : List WordNode)
    (hw : h.map WordNode.word = s.heap.map WordNode.word) (w : Word) :
    Known { s with heap := h } w ↔ Known s w := by
  have hpt : ∀ p : Nat, (h[p]?).map WordNode.word = (s.heap[p]?).map WordNode.word := by
    intro p
    rw [← List.getElem?_map, ← List.getElem?_map, hw]
  constructor
  · rintro ⟨p, n, hn, rfl⟩
    have := hpt p
    rw [show ({ s with heap := h } : Synonyms).heap[p]? = h[p]? from rfl] at hn
    rw [hn] at this
    cases e : s.heap[p]? with
    | none => rw [e] at this; cases this
    | some n0 =>
      rw [e] at this
      simp only [Option.map_some', Option.some.injEq] at this
      exact ⟨p, n0, e, this.symm⟩
  · rintro ⟨p, n, hn, rfl⟩
    have := hpt p
    rw [hn] at this
    cases e : h[p]? with
    | none => rw [e] at this; cases this
    | some n0 =>
      rw [e] at this
      simp only [Option.map_some', Option.some.injEq] at this
      exact ⟨p, n0, e, this⟩

/-! ### `AddSynonyms` and the lookup-or-insert step -/

/-- The representative of a word of a well-formed dictionary, read off its entry. -/
theorem representative_iff (s : Synonyms) (hs : WF s) (x : Word) (r : Nat) :
    representative s x = some r ↔
      ∃ (p : Nat) (n : WordNode), s.heap[p]? = some n ∧ n.word = x ∧
        ((n.isRepresentative = true ∧ r = p) ∨
         (n.isRepresentative = false ∧ n.parent = some r)) := by
  constructor
  · intro h
    unfold representative at h
    split at h
    · next p hp =>
      obtain ⟨n, hn, hw⟩ := find_some_entry s x p hp
      obtain ⟨n', hn', hc⟩ := (root_iff s.heap hs.forest p r).1 h
      rw [hn] at hn'; cases hn'
      exact ⟨p, n, hn, hw, hc⟩
    · cases h
  · rintro ⟨p, n, hn, rfl, hc⟩
    unfold representative
    rw [find_known s hs.tbl p n hn]
    exact (root_iff s.heap hs.forest p r).2 ⟨n, hn, hc⟩

theorem representative_isSome (s : Synonyms) (hs : WF s) (x : Word) :
    (∃ r, representative s x = some r) ↔ Known s x := by
  constructor
  · rintro ⟨r, h⟩
    obtain ⟨p, n, hn, hw, _⟩ := (representative_iff s hs x r).1 h
    exact ⟨p, n, hn, hw⟩
  · rintro ⟨p, n, hn, rfl⟩
    obtain ⟨r, nr, h1, _⟩ := root_total s.heap hs.forest p n hn
    refine ⟨r, ?_⟩
    unfold representative
    rw [find_known s hs.tbl p n hn]
    exact h1

/-- The representative of a word is an entry with `isRepresentative` set. -/
theorem representative_isRep (s : Synonyms) (hs : WF s) (x : Word) (r : Nat)
    (h : representative s x = some r) :
    ∃ nr : WordNode, s.heap[r]? = some nr ∧ nr.isRepresentative = true := by
  obtain ⟨p, n, hn, _, hc⟩ := (representative_iff s hs x r).1 h
  rcases hc with ⟨h1, rfl⟩ | ⟨h1, h2⟩
  · exact ⟨n, hn, h1⟩
  · obtain ⟨_, _, r', nr, e1, e2, e3, _⟩ := hs.forest.mem_ok p n hn h1
    rw [h2] at e1; cases e1
    exact ⟨nr, e2, e3⟩

theorem addSynonyms_spec (s : Synonyms) (hs : WF s) (p1 p2 : Nat) (n1 n2 : WordNode)
    (h1 : s.heap[p1]? = some n1) (h2 : s.heap[p2]? = some n2)
    (hr1 : n1.isRepresentative = true) (hr2 : n2.isRepresentative = true) :
    ∃ (h : List WordNode) (r : Nat) (nr : WordNode),
      AddSynonyms s.heap p1 p2 = some (h, r) ∧ WF { s with heap := h } ∧
      h[r]? = some nr ∧ nr.isRepresentative = true ∧ (r = p1 ∨ r = p2) ∧
      h.map WordNode.word = s.heap.map WordNode.word ∧
      (p1 = p2 → h = s.heap) ∧
      ∀ x, representative { s with heap := h } x =
        (representative s x).map (fun r0 => if r0 = p1 ∨ r0 = p2 then r else r0) := by
  by_cases he : p1 = p2
  · subst he
    refine ⟨s.heap, p1, n1, by simp [AddSynonyms], hs, h1, hr1, Or.inl rfl, rfl, fun _ => rfl, ?_⟩
    intro x
    cases hx : representative s x with
    | none => rfl
    | some r0 =>
      simp only [or_self, Option.map_some', Option.some.injEq]
      split
      · next h => exact h
      · rfl
  · have key : ∀ (a b : Nat) (na nb : WordNode), a ≠ b → s.heap[a]? = some na →
        s.heap[b]? = some nb → na.isRepresentative = true → nb.isRepresentative = true →
        nb.rank ≤ na.rank → (a = p1 ∧ b = p2 ∨ a = p2 ∧ b = p1) →
        ∃ (h : List WordNode) (nr : WordNode),
          absorb s.heap a b = some h ∧ WF { s with heap := h } ∧
          h[a]? = some nr ∧ nr.isRepresentative = true ∧
          h.map WordNode.word = s.heap.map WordNode.word ∧
          ∀ x, representative { s with heap := h } x =
            (representative s x).map (fun r0 => if r0 = p1 ∨ r0 = p2 then a else r0) := by
      intro a b na nb hab ha hb hra hrb hrank hor
      obtain ⟨h, e1, e2⟩ := absorb_absorbed s.heap hs.forest a b na nb hab ha hb hra hrb hrank
      have hw := absorbed_word s.heap h a b na nb hab ha hb e2
      have hf' := absorbed_forest s.heap h hs.forest a b na nb hab ha hb hra hrb e2
      refine ⟨h, _, e1, ⟨tableOK_congr s hs.tbl h hw, hf'⟩, e2.at_a, hra, hw, ?_⟩
      intro x
      unfold representative
      rw [find_congr s h hw x]
      cases hfx : FindWordNode s x with
      | none => rfl
      | some res =>
        cases res with
        | none => rfl
        | some p =>
          show GetRepresentative h (h.length + 1) (some p) = _
          rw [absorbed_root s.heap h hs.forest hf' a b na nb hab ha hb hra hrb e2 p]
          congr 1
          funext r0
          rcases hor with ⟨rfl, rfl⟩ | ⟨rfl, rfl⟩
          · by_cases e : r0 = b
            · simp [e]
            · by_cases e' : r0 = a <;> simp [e, e']
          · by_cases e : r0 = b
            · simp [e]
            · by_cases e' : r0 = a <;> simp [e, e']
    have hne21 : p2 ≠ p1 := fun h => he h.symm
    unfold AddSynonyms
    rw [if_neg he]
    simp only [h1, h2]
    by_cases hrank : n1.rank ≥ n2.rank
    · rw [if_pos hrank]
      obtain ⟨h, nr, e1, e2, e3, e4, e5, e6⟩ :=
        key p1 p2 n1 n2 he h1 h2 hr1 hr2 hrank (Or.inl ⟨rfl, rfl⟩)
      exact ⟨h, p1, nr, by rw [e1]; rfl, e2, e3, e4, Or.inl rfl, e5,
        fun h => absurd h he, e6⟩
    · rw [if_neg hrank]
      obtain ⟨h, nr, e1, e2, e3, e4, e5, e6⟩ :=
        key p2 p1 n2 n1 hne21 h2 h1 hr2 hr1 (by omega) (Or.inr ⟨rfl, rfl⟩)
      exact ⟨h, p2, nr, by rw [e1]; rfl, e2, e3, e4, Or.inr rfl, e5,
        fun h => absurd h he, e6⟩

theorem resolve_spec (s : Synonyms) (hs : WF s) (t : Word) (ht : HashInRange t) :
    ∃ (s1 : Synonyms) (w2 : Nat) (n2 : WordNode),
      resolve s t = some (s1, w2) ∧ WF s1 ∧
      s1.heap[w2]? = some n2 ∧ n2.isRepresentative = true ∧
      representative s1 t = some w2 ∧
      (∀ x r, representative s1 x = some r ↔
        representative s x = some r ∨ (x = t ∧ r = w2)) ∧
      (representative s t = some w2 ∨ ∀ x, representative s x ≠ some w2) ∧
      (∀ (p : Nat) (n : WordNode), s.heap[p]? = some n → s1.heap[p]? = some n) ∧
      (∀ x, Known s1 x ↔ Known s x ∨ x = t) ∧
      (Known s t → s1 = s) ∧
      (¬ Known s t → s1.heap = s.heap ++ [GetNewWordNode t] ∧ w2 = s.heap.length ∧
        s1.table = s.table.set (getHashVal t).toNat
          ((s.table.getD (getHashVal t).toNat []) ++ [s.heap.length])) := by
  by_cases hk : Known s t
  · obtain ⟨p, n, hn, rfl⟩ := hk
    obtain ⟨r, nr, e1, e2, e3, _⟩ := root_total s.heap hs.forest p n hn
    have hrep : representative s n.word = some r := by
      unfold representative
      rw [find_known s hs.tbl p n hn]; exact e1
    refine ⟨s, r, nr, ?_, hs, e2, e3, hrep, ?_, Or.inl hrep, fun _ _ h => h, ?_, fun _ => rfl,
      fun h => absurd ⟨p, n, hn, rfl⟩ h⟩
    · unfold resolve
      rw [find_known s hs.tbl p n hn]
      simp only [e1]
    · intro x r'
      constructor
      · exact fun h => Or.inl h
      · rintro (h | ⟨rfl, rfl⟩)
        · exact h
        · exact hrep
    · intro x
      constructor
      · exact fun h => Or.inl h
      · rintro (h | rfl)
        · exact h
        · exact ⟨p, n, hn, rfl⟩
  · obtain ⟨s1, e1, e2, e3⟩ := insert_spec s hs t ht hk
    have hnew : s1.heap[s.heap.length]? = some (GetNewWordNode t) := by
      rw [e2]; exact List.getElem?_concat_length _ _
    have hrep1 : representative s1 t = some s.heap.length :=
      (representative_iff s1 e3 t _).2 ⟨_, _, hnew, rfl, Or.inl ⟨rfl, rfl⟩⟩
    have hold : ∀ (p : Nat) (n : WordNode), s.heap[p]? = some n → s1.heap[p]? = some n := by
      intro p n hn
      rw [e2]; exact (getElem?_snoc _ _ _ _).2 (Or.inl hn)
    refine ⟨s1, s.heap.length, GetNewWordNode t, ?_, e3, hnew, rfl, hrep1, ?_, Or.inr ?_, hold,
      ?_, fun h => absurd h hk, fun _ => ⟨e2, rfl, ?_⟩⟩
    · unfold resolve
      rw [find_unknown s hs.tbl t ht hk]
      simp only [e1]
      have : GetRepresentative s1.heap (s1.heap.length + 1) (some s.heap.length)
          = some s.heap.length := root_rep _ _ _ _ hnew rfl
      rw [this]
    · intro x r
      rw [representative_iff s1 e3, representative_iff s hs]
      constructor
      · rintro ⟨p, n, hn, hw, hc⟩
        rw [e2] at hn
        rcases (getElem?_snoc _ _ _ _).1 hn with hn | ⟨rfl, rfl⟩
        · exact Or.inl ⟨p, n, hn, hw, hc⟩
        · right
          refine ⟨hw.symm, ?_⟩
          rcases hc with ⟨_, h⟩ | ⟨h, _⟩
          · exact h
          · cases h
      · rintro (⟨p, n, hn, hw, hc⟩ | ⟨rfl, rfl⟩)
        · exact ⟨p, n, hold p n hn, hw, hc⟩
        · exact ⟨_, _, hnew, rfl, Or.inl ⟨rfl, rfl⟩⟩
    · intro x hx
      obtain ⟨nr, h1, _⟩ := representative_isRep s hs x _ hx
      have := getElem?_lt _ _ _ h1
      omega
    · intro x
      constructor
      · rintro ⟨p, n, hn, hw⟩
        rw [e2] at hn
        rcases (getElem?_snoc _ _ _ _).1 hn with hn | ⟨rfl, rfl⟩
        · exact Or.inl ⟨p, n, hn, hw⟩
        · exact Or.inr hw.symm
      · rintro (⟨p, n, hn, hw⟩ | rfl)
        · exact ⟨p, n, hold p n hn, hw⟩
        · exact ⟨_, _, hnew, rfl⟩
    · obtain ⟨chain, hb, hb2⟩ := bucket_isSome s hs.tbl.table_len t ht
      unfold InsertWordNode at e1
      rw [hb] at e1
      simp only [Option.some.injEq, Prod.mk.injEq, and_true] at e1
      rw [← e1]
      have : s.table.getD (getHashVal t).toNat [] = chain := by
        rw [List.getD_eq_getElem?_getD, hb2]; rfl
      rw [this]

/-! ### Groups as functions from words to representatives -/

/-- Groups after an entry for `t` was looked up or created, in terms of the
groups before. -/
theorem resolve_groups (g g1 : Word → Option Nat) (t : Word) (w2 : Nat)
    (hg1 : ∀ x r, g1 x = some r ↔ g x = some r ∨ (x = t ∧ r = w2))
    (hfresh : g t = some w2 ∨ ∀ x, g x ≠ some w2) :
    (∀ x, g1 x = some w2 ↔ x = t ∨ ∃ r, g x = some r ∧ g t = some r) ∧
    (∀ x y, (∃ r, g1 x = some r ∧ g1 y = some r) ↔
      (∃ r, g x = some r ∧ g y = some r) ∨ (x = t ∧ y = t)) := by
  have ht1 : g1 t = some w2 := (hg1 t w2).2 (Or.inr ⟨rfl, rfl⟩)
  have hgt : ∀ r, g t = some r → r = w2 := by
    intro r hr
    have := (hg1 t r).2 (Or.inl hr)
    rw [ht1] at this; cases this; rfl
  constructor
  · intro x
    rw [hg1]
    constructor
    · rintro (h | ⟨h, _⟩)
      · rcases hfresh with hf | hf
        · exact Or.inr ⟨w2, h, hf⟩
        · exact absurd h (hf x)
      · exact Or.inl h
    · rintro (h | ⟨r, h1, h2⟩)
      · exact Or.inr ⟨h, rfl⟩
      · rw [hgt r h2] at h1; exact Or.inl h1
  · intro x y
    constructor
    · rintro ⟨r, hx, hy⟩
      rcases (hg1 x r).1 hx with hx | ⟨rfl, rfl⟩ <;> rcases (hg1 y r).1 hy with hy | ⟨rfl, hy2⟩
      · exact Or.inl ⟨r, hx, hy⟩
      · subst hy2
        rcases hfresh with hf | hf
        · exact Or.inl ⟨r, hx, hf⟩
        · exact absurd hx (hf x)
      · rcases hfresh with hf | hf
        · exact Or.inl ⟨r, hf, hy⟩
        · exact absurd hy (hf y)
      · exact Or.inr ⟨rfl, rfl⟩
    · rintro (⟨r, hx, hy⟩ | ⟨rfl, rfl⟩)
      · exact ⟨r, (hg1 x r).2 (Or.inl hx), (hg1 y r).2 (Or.inl hy)⟩
      · exact ⟨w2, ht1, ht1⟩

/-- Groups after the groups of `w1` and `w2` were merged into `r2`. -/
theorem merge_groups (g1 g2 : Word → Option Nat) (w1 w2 r2 : Nat) (hr2 : r2 = w1 ∨ r2 = w2)
    (hg2 : ∀ x, g2 x = (g1 x).map (fun r0 => if r0 = w1 ∨ r0 = w2 then r2 else r0)) :
    (∀ x, g2 x = some r2 ↔ g1 x = some w1 ∨ g1 x = some w2) ∧
    (∀ x y, (∃ r, g2 x = some r ∧ g2 y = some r) ↔
      (∃ r, g1 x = some r ∧ g1 y = some r) ∨
      ((g1 x = some w1 ∨ g1 x = some w2) ∧ (g1 y = some w1 ∨ g1 y = some w2))) := by
  have h1 : ∀ x, g2 x = some r2 ↔ g1 x = some w1 ∨ g1 x = some w2 := by
    intro x
    rw [hg2 x]
    cases hx : g1 x with
    | none => simp
    | some r0 =>
      simp only [Option.map_some', Option.some.injEq]
      by_cases hc : r0 = w1 ∨ r0 = w2
      · rw [if_pos hc]; simp [hc]
      · rw [if_neg hc]
        constructor
        · intro h; subst h; exact absurd hr2 hc
        · intro h; exact absurd h hc
  refine ⟨h1, ?_⟩
  intro x y
  constructor
  · rintro ⟨r, hx, hy⟩
    by_cases hx2 : g1 x = some w1 ∨ g1 x = some w2
    · have : g2 x = some r2 := (h1 x).2 hx2
      rw [hx] at this; cases this
      exact Or.inr ⟨hx2, (h1 y).1 hy⟩
    · by_cases hy2 : g1 y = some w1 ∨ g1 y = some w2
      · have : g2 y = some r2 := (h1 y).2 hy2
        rw [hy] at this; cases this
        exact Or.inr ⟨(h1 x).1 hx, hy2⟩
      · left
        rw [hg2 x] at hx
        rw [hg2 y] at hy
        cases ex : g1 x with
        | none => rw [ex] at hx; cases hx
        | some rx =>
          cases ey : g1 y with
          | none => rw [ey] at hy; cases hy
          | some ry =>
            rw [ex] at hx hx2
            rw [ey] at hy hy2
            simp only [Option.map_some', Option.some.injEq] at hx hy hx2 hy2
            rw [if_neg hx2] at hx
            rw [if_neg hy2] at hy
            exact ⟨r, by rw [hx], by rw [hy]⟩
  · rintro (⟨r, hx, hy⟩ | ⟨hx, hy⟩)
    · exact ⟨_, by rw [hg2 x, hx]; rfl, by rw [hg2 y, hy]; rfl⟩
    · exact ⟨r2, (h1 x).2 hx, (h1 y).2 hy⟩

/-! ### `synonyms_define` -/

theorem defineLoop_spec (ts : List Word) :
    ∀ (s : Synonyms) (w1 : Nat) (n1 : WordNode), WF s → s.heap[w1]? = some n1 →
      n1.isRepresentative = true → (∀ t ∈ ts, HashInRange t) →
      ∃ (s' : Synonyms) (r : Nat) (nr : WordNode),
        defineLoop s w1 ts = some s' ∧ WF s' ∧
        s'.heap[r]? = some nr ∧ nr.isRepresentative = true ∧
        (∀ x, representative s' x = some r ↔ Gathered s w1 ts x) ∧
        (∀ x y, SameGroup s' x y ↔
          SameGroup s x y ∨ (Gathered s w1 ts x ∧ Gathered s w1 ts y)) ∧
        (∀ x, Known s' x ↔ Known s x ∨ x ∈ ts) := by
  induction ts with
  | nil =>
    intro s w1 n1 hs h1 hr1 _
    refine ⟨s, w1, n1, rfl, hs, h1, hr1, ?_, ?_, by simp⟩
    · intro x; simp [Gathered]
    · intro x y
      constructor
      · exact fun h => Or.inl h
      · rintro (h | ⟨hx, hy⟩)
        · exact h
        · simp only [Gathered, List.not_mem_nil, false_and, exists_false, or_false] at hx hy
          exact ⟨w1, hx, hy⟩
  | cons t ts ih =>
    intro s w1 n1 hs h1 hr1 hts
    obtain ⟨s1, w2, n2, e1, hs1, e2, e3, -, e5, e6, e7, e8, -, -⟩ :=
      resolve_spec s hs t (hts t (by simp))
    obtain ⟨h, r2, nr2, a1, a2, a3, a4, a5, a6, -, a8⟩ :=
      addSynonyms_spec s1 hs1 w1 w2 n1 n2 (e7 w1 n1 h1) e2 hr1 e3
    obtain ⟨s', r, nr, b1, b2, b3, b4, b5, b6, b7⟩ :=
      ih { s1 with heap := h } r2 nr2 a2 a3 a4 (fun t' ht' => hts t' (by simp [ht']))
    obtain ⟨c1, c2⟩ := resolve_groups (representative s) (representative s1) t w2 e5 e6
    obtain ⟨d1, d2⟩ := merge_groups (representative s1)
      (representative { s1 with heap := h }) w1 w2 r2 a5 a8
    -- the group of the accumulator after this iteration
    have hacc : ∀ x, representative { s1 with heap := h } x = some r2 ↔
        Gathered s w1 [t] x := by
      intro x
      rw [d1, c1, e5]
      simp only [Gathered, List.mem_singleton, exists_eq_left, SameGroup]
      constructor
      · rintro ((h | ⟨h, _⟩) | h)
        · exact Or.inl h
        · exact Or.inr (Or.inl h)
        · exact Or.inr h
      · rintro (h | h)
        · exact Or.inl (Or.inl h)
        · exact Or.inr h
    have hsame : ∀ x y, SameGroup { s1 with heap := h } x y ↔
        SameGroup s x y ∨ (Gathered s w1 [t] x ∧ Gathered s w1 [t] y) := by
      intro x y
      unfold SameGroup
      rw [d2, c2, ← d1, ← d1, hacc, hacc]
      constructor
      · rintro ((h | ⟨hx, hy⟩) | h)
        · exact Or.inl h
        · exact Or.inr ⟨Or.inr ⟨t, by simp, Or.inl hx⟩, Or.inr ⟨t, by simp, Or.inl hy⟩⟩
        · exact Or.inr h
      · rintro (h | h)
        · exact Or.inl (Or.inl h)
        · exact Or.inr h
    have hmono : ∀ x, Gathered s w1 [t] x → Gathered s w1 (t :: ts) x := by
      rintro x (h | ⟨t', ht', h⟩)
      · exact Or.inl h
      · exact Or.inr ⟨t', by simp at ht'; simp [ht'], h⟩
    have hgath : ∀ x, Gathered { s1 with heap := h } r2 ts x ↔ Gathered s w1 (t :: ts) x := by
      intro x
      constructor
      · rintro (h | ⟨t', ht', h | h⟩)
        · exact hmono x ((hacc x).1 h)
        · exact Or.inr ⟨t', by simp [ht'], Or.inl h⟩
        · rcases (hsame x t').1 h with h | ⟨h, _⟩
          · exact Or.inr ⟨t', by simp [ht'], Or.inr h⟩
          · exact hmono x h
      · rintro (h | ⟨t', ht', h⟩)
        · exact Or.inl ((hacc x).2 (Or.inl h))
        · rcases List.mem_cons.1 ht' with rfl | ht'
          · exact Or.inl ((hacc x).2 (Or.inr ⟨t', by simp, h⟩))
          · rcases h with h | h
            · exact Or.inr ⟨t', ht', Or.inl h⟩
            · exact Or.inr ⟨t', ht', Or.inr ((hsame x t').2 (Or.inl h))⟩
    refine ⟨s', r, nr, ?_, b2, b3, b4, ?_, ?_, ?_⟩
    · simp only [defineLoop, e1, a1]
      exact b1
    · intro x
      rw [b5, hgath]
    · intro x y
      rw [b6, hgath, hgath, hsame]
      constructor
      · rintro ((h | ⟨hx, hy⟩) | h)
        · exact Or.inl h
        · exact Or.inr ⟨hmono x hx, hmono y hy⟩
        · exact Or.inr h
      · rintro (h | h)
        · exact Or.inl (Or.inl h)
        · exact Or.inr h
    · intro x
      rw [b7, known_congr s1 h a6, e8]
      simp only [List.mem_cons]
      tauto

/-- The effect of one `synonyms_define` call on a well-formed dictionary: it
returns, the dictionary stays well-formed, the words of the call become
known, and the groups the call touches are merged into one. -/
theorem define_spec (s : Synonyms) (hs : WF s) (w : Word) (ts : List Word)
    (hw : ∀ t ∈ w :: ts, HashInRange t) :
    ∃ s', synonyms_define s w ts = some s' ∧ WF s' ∧
      (∀ x, Known s' x ↔ Known s x ∨ x ∈ w :: ts) ∧
      (∀ x y, SameGroup s' x y ↔
        SameGroup s x y ∨ (Touched s (w :: ts) x ∧ Touched s (w :: ts) y)) := by
  obtain ⟨s1, w1, n1, e1, hs1, e2, e3, -, e5, e6, -, e8, -, -⟩ :=
    resolve_spec s hs w (hw w (by simp))
  obtain ⟨s', r, nr, b1, b2, -, -, -, b6, b7⟩ :=
    defineLoop_spec ts s1 w1 n1 hs1 e2 e3 (fun t ht => hw t (by simp [ht]))
  obtain ⟨c1, c2⟩ := resolve_groups (representative s) (representative s1) w w1 e5 e6
  have hg : ∀ x, Gathered s1 w1 ts x ↔ Touched s (w :: ts) x := by
    intro x
    unfold Gathered Touched SameGroup
    rw [c1]
    constructor
    · rintro (h | ⟨t, ht, h | h⟩)
      · exact ⟨w, by simp, h⟩
      · exact ⟨t, by simp [ht], Or.inl h⟩
      · rcases (c2 x t).1 h with h | ⟨h, _⟩
        · exact ⟨t, by simp [ht], Or.inr h⟩
        · exact ⟨w, by simp, Or.inl h⟩
    · rintro ⟨t, ht, h⟩
      rcases List.mem_cons.1 ht with rfl | ht
      · exact Or.inl h
      · rcases h with h | h
        · exact Or.inr ⟨t, ht, Or.inl h⟩
        · exact Or.inr ⟨t, ht, Or.inr ((c2 x t).2 (Or.inl h))⟩
  refine ⟨s', ?_, b2, ?_, ?_⟩
  · unfold synonyms_define
    simp only [e1]
    exact b1
  · intro x
    rw [b7, e8]
    simp only [List.mem_cons]
    tauto
  · intro x y
    rw [b6, hg, hg]
    unfold SameGroup
    rw [c2]
    constructor
    · rintro ((h | ⟨hx, hy⟩) | h)
      · exact Or.inl h
      · exact Or.inr ⟨⟨w, by simp, Or.inl hx⟩, ⟨w, by simp, Or.inl hy⟩⟩
      · exact Or.inr h
    · rintro (h | h)
      · exact Or.inl (Or.inl h)
      · exact Or.inr h

/-- A call returns only if all its words index the table inside its bounds. -/
theorem resolve_hashInRange (s s1 : Synonyms) (t : Word) (r : Nat)
    (h : resolve s t = some (s1, r)) : HashInRange t := by
  unfold resolve at h
  cases hf : FindWordNode s t with
  | none => rw [hf] at h; cases h
  | some res => exact find_hashInRange s t res hf

theorem defineLoop_hashInRange (ts : List Word) :
    ∀ (s s' : Synonyms) (w1 : Nat), defineLoop s w1 ts = some s' →
      ∀ t ∈ ts, HashInRange t := by
  induction ts with
  | nil => intro _ _ _ _ t ht; cases ht
  | cons t ts ih =>
    intro s s' w1 h t' ht'
    simp only [defineLoop] at h
    cases hr : resolve s t with
    | none => rw [hr] at h; cases h
    | some res =>
      obtain ⟨s1, w2⟩ := res
      rw [hr] at h
      simp only at h
      cases ha : AddSynonyms s1.heap w1 w2 with
      | none => rw [ha] at h; cases h
      | some res2 =>
        obtain ⟨hh, w⟩ := res2
        rw [ha] at h
        simp only at h
        rcases List.mem_cons.1 ht' with rfl | ht'
        · exact resolve_hashInRange s s1 _ w2 hr
        · exact ih _ s' w h t' ht'

theorem define_hashInRange (s s' : Synonyms) (w : Word) (ts : List Word)
    (h : synonyms_define s w ts = some s') : ∀ t ∈ w :: ts, HashInRange t := by
  unfold synonyms_define at h
  cases hr : resolve s w with
  | none => rw [hr] at h; cases h
  | some res =>
    obtain ⟨s1, w1⟩ := res
    rw [hr] at h
    simp only at h
    intro t ht
    rcases List.mem_cons.1 ht with rfl | ht
    · exact resolve_hashInRange s s1 _ w1 hr
    · exact defineLoop_hashInRange ts s1 s' w1 h t ht

theorem define_wf (s s' : Synonyms) (hs : WF s) (w : Word) (ts : List Word)
    (h : synonyms_define s w ts = some s') : WF s' := by
  obtain ⟨s'', e1, e2, _⟩ := define_spec s hs w ts (define_hashInRange s s' w ts h)
  rw [h] at e1; cases e1; exact e2

theorem runFrom_wf (calls : List (Word × List Word)) :
    ∀ (s d : Synonyms), WF s → runFrom s calls = some d → WF d := by
  induction calls with
  | nil => intro s d hs h; cases h; exact hs
  | cons c cs ih =>
    intro s d hs h
    simp only [runFrom] at h
    cases hd : synonyms_define s c.1 c.2 with
    | none => rw [hd] at h; cases h
    | some s1 =>
      rw [hd] at h
      exact ih s1 d (define_wf s s1 hs c.1 c.2 hd) h

theorem reachable_wf (d : Synonyms) (h : Reachable d) : WF d := by
  obtain ⟨calls, hc⟩ := h
  exact runFrom_wf calls synonyms_init d synonyms_init_wf hc

/-! ### `is_synonym` -/

theorem representative_entry (s : Synonyms) (hs : WF s) (p : Nat) (n : WordNode)
    (hn : s.heap[p]? = some n) (r : Nat) :
    representative s n.word = some r ↔
      ((n.isRepresentative = true ∧ r = p) ∨
       (n.isRepresentative = false ∧ n.parent = some r)) := by
  rw [representative_iff s hs]
  constructor
  · rintro ⟨q, m, hm, hw, hc⟩
    have := hs.tbl.word_inj q p m n hm hn hw
    subst this
    rw [hn] at hm; cases hm
    exact hc
  · intro hc
    exact ⟨p, n, hn, rfl, hc⟩

theorem representative_unknown (s : Synonyms) (hs : WF s) (x : Word) (hk : ¬ Known s x) :
    representative s x = none := by
  cases h : representative s x with
  | none => rfl
  | some r => exact absurd ((representative_isSome s hs x).1 ⟨r, h⟩) hk

/-- The answer of `is_synonym` on a well-formed dictionary. -/
theorem is_synonym_spec (s : Synonyms) (hs : WF s) (x y : Word)
    (hx : HashInRange x) (hy : HashInRange y) :
    ∃ b, is_synonym s x y = some b ∧ (b = true ↔ x ≠ y ∧ SameGroup s x y) := by
  by_cases hxy : x = y
  · exact ⟨false, by simp [is_synonym, hxy], by simp [hxy]⟩
  unfold is_synonym
  rw [if_neg hxy]
  by_cases hkx : Known s x
  swap
  · rw [find_unknown s hs.tbl x hx hkx]
    have hfy : ∃ res, FindWordNode s y = some res := by
      by_cases hky : Known s y
      · obtain ⟨p, n, hn, rfl⟩ := hky
        exact ⟨_, find_known s hs.tbl p n hn⟩
      · exact ⟨_, find_unknown s hs.tbl y hy hky⟩
    obtain ⟨res, hres⟩ := hfy
    rw [hres]
    refine ⟨false, rfl, ?_⟩
    simp only [Bool.false_eq_true, false_iff, not_and]
    rintro _ ⟨r, h1, _⟩
    rw [representative_unknown s hs x hkx] at h1; cases h1
  by_cases hky : Known s y
  swap
  · obtain ⟨p, n, hn, rfl⟩ := hkx
    rw [find_known s hs.tbl p n hn, find_unknown s hs.tbl y hy hky]
    refine ⟨false, rfl, ?_⟩
    simp only [Bool.false_eq_true, false_iff, not_and]
    rintro _ ⟨r, _, h1⟩
    rw [representative_unknown s hs y hky] at h1; cases h1
  obtain ⟨p1, n1, hn1, rfl⟩ := hkx
  obtain ⟨p2, n2, hn2, rfl⟩ := hky
  rw [find_known s hs.tbl p1 n1 hn1, find_known s hs.tbl p2 n2 hn2]
  simp only [hn1, hn2]
  have hp : p1 ≠ p2 := by
    rintro rfl
    rw [hn1] at hn2; cases hn2
    exact hxy rfl
  have hsg : SameGroup s n1.word n2.word ↔ ∃ r,
      ((n1.isRepresentative = true ∧ r = p1) ∨
       (n1.isRepresentative = false ∧ n1.parent = some r)) ∧
      ((n2.isRepresentative = true ∧ r = p2) ∨
       (n2.isRepresentative = false ∧ n2.parent = some r)) := by
    unfold SameGroup
    constructor
    · rintro ⟨r, h1, h2⟩
      exact ⟨r, (representative_entry s hs p1 n1 hn1 r).1 h1,
        (representative_entry s hs p2 n2 hn2 r).1 h2⟩
    · rintro ⟨r, h1, h2⟩
      exact ⟨r, (representative_entry s hs p1 n1 hn1 r).2 h1,
        (representative_entry s hs p2 n2 hn2 r).2 h2⟩
  have hpar : ∀ (p : Nat) (n : WordNode), s.heap[p]? = some n →
      (n.isRepresentative = true ∧ n.parent = none) ∨
      (n.isRepresentative = false ∧ ∃ r, n.parent = some r) := by
    intro p n hn
    cases hr : n.isRepresentative with
    | true => exact Or.inl ⟨rfl, (hs.forest.rep_ok p n hn hr).1⟩
    | false =>
      obtain ⟨_, _, r, _, e, _⟩ := hs.forest.mem_ok p n hn hr
      exact Or.inr ⟨rfl, r, e⟩
  rw [hsg]
  rcases hpar p1 n1 hn1 with ⟨a1, a2⟩ | ⟨a1, q1, a2⟩ <;>
  rcases hpar p2 n2 hn2 with ⟨b1, b2⟩ | ⟨b1, q2, b2⟩
  · refine ⟨_, by rw [if_pos a2], ?_⟩
    constructor
    · intro h
      have h' := of_decide_eq_true h
      rw [b2] at h'; cases h'
    · rintro ⟨_, r, c1, c2⟩
      rcases c1 with ⟨_, rfl⟩ | ⟨e, _⟩
      · rcases c2 with ⟨_, e⟩ | ⟨e, _⟩
        · exact absurd e hp
        · rw [b1] at e; cases e
      · rw [a1] at e; cases e
  · refine ⟨_, by rw [if_pos a2], ?_⟩
    constructor
    · intro h
      have h' := of_decide_eq_true h
      exact ⟨hxy, p1, Or.inl ⟨a1, rfl⟩, Or.inr ⟨b1, h'.symm⟩⟩
    · rintro ⟨_, r, c1, c2⟩
      rcases c1 with ⟨_, rfl⟩ | ⟨e, _⟩
      · rcases c2 with ⟨e, _⟩ | ⟨_, e⟩
        · rw [b1] at e; cases e
        · exact decide_eq_true e.symm
      · rw [a1] at e; cases e
  · refine ⟨_, by rw [if_neg (by simp [a2]), if_pos b2], ?_⟩
    constructor
    · intro h
      have h' := of_decide_eq_true h
      exact ⟨hxy, p2, Or.inr ⟨a1, h'.symm⟩, Or.inl ⟨b1, rfl⟩⟩
    · rintro ⟨_, r, c1, c2⟩
      rcases c2 with ⟨_, rfl⟩ | ⟨e, _⟩
      · rcases c1 with ⟨e, _⟩ | ⟨_, e⟩
        · rw [a1] at e; cases e
        · exact decide_eq_true e.symm
      · rw [b1] at e; cases e
  · refine ⟨_, by rw [if_neg (by simp [a2]), if_neg (by simp [b2])], ?_⟩
    constructor
    · intro h
      have h' := of_decide_eq_true h
      exact ⟨hxy, q1, Or.inr ⟨a1, a2⟩, Or.inr ⟨b1, by rw [← h', a2]⟩⟩
    · rintro ⟨_, r, c1, c2⟩
      rcases c1 with ⟨e, _⟩ | ⟨_, e1⟩
      · rw [a1] at e; cases e
      · rcases c2 with ⟨e, _⟩ | ⟨_, e2⟩
        · rw [b1] at e; cases e
        · exact decide_eq_true (by rw [e1, e2])

theorem is_synonym_true_iff (s : Synonyms) (hs : WF s) (x y : Word) :
    is_synonym s x y = some true ↔ x ≠ y ∧ SameGroup s x y := by
  constructor
  · intro h
    have hx : HashInRange x ∧ HashInRange y := by
      unfold is_synonym at h
      split at h
      · cases h
      · cases h1 : FindWordNode s x with
        | none => rw [h1] at h; cases h
        | some r1 =>
          cases h2 : FindWordNode s y with
          | none => rw [h1, h2] at h; cases h
          | some r2 => exact ⟨find_hashInRange s x r1 h1, find_hashInRange s y r2 h2⟩
    obtain ⟨b, e1, e2⟩ := is_synonym_spec s hs x y hx.1 hx.2
    rw [h] at e1; cases e1
    exact e2.1 rfl
  · rintro ⟨hxy, hsg⟩
    have hk : ∀ z, (∃ r, representative s z = some r) → HashInRange z := by
      rintro z hz
      obtain ⟨p, n, hn, rfl⟩ := (representative_isSome s hs z).1 hz
      exact hashInRange_of_entry s hs.tbl p n hn
    obtain ⟨r, h1, h2⟩ := hsg
    obtain ⟨b, e1, e2⟩ := is_synonym_spec s hs x y (hk x ⟨r, h1⟩) (hk y ⟨r, h2⟩)
    rw [e1, e2.2 ⟨hxy, r, h1, h2⟩]

/-! ### `synonyms_get` and group sizes -/

theorem copyLoop_spec (heap : List WordNode) (rank : Nat) (l : List Nat) :
    ∀ (i : Nat) (arr : List (Option Word)),
      (∀ m ∈ l, ∃ nm : WordNode, heap[m]? = some nm) → arr.length = rank →
      rank ≤ i + l.length →
      ∃ arr', copyLoop heap rank i l arr = some arr' ∧ arr'.length = rank ∧
        (∀ j, j < i → arr'[j]? = arr[j]?) ∧
        (∀ j, i ≤ j → j < rank → ∃ w, arr'[j]? = some (some w)) := by
  induction l with
  | nil =>
    intro i arr _ hlen hle
    simp only [List.length_nil, Nat.add_zero] at hle
    refine ⟨arr, by simp [copyLoop, Nat.not_lt.2 hle], hlen, fun _ _ => rfl, ?_⟩
    intro j h1 h2; omega
  | cons m rest ih =>
    intro i arr hv hlen hle
    by_cases hi : i < rank
    · obtain ⟨nm, hnm⟩ := hv m (by simp)
      have hw : writeSlot arr i nm.word = some (arr.set i (some nm.word)) := by
        unfold writeSlot; rw [if_pos (by omega)]
      obtain ⟨arr', e1, e2, e3, e4⟩ := ih (i + 1) (arr.set i (some nm.word))
        (fun x hx => hv x (by simp [hx])) (by simpa using hlen)
        (by simp only [List.length_cons] at hle; omega)
      refine ⟨arr', by simp only [copyLoop, if_pos hi, hnm, hw]; exact e1, e2, ?_, ?_⟩
      · intro j hj
        rw [e3 j (by omega), List.getElem?_set, if_neg (by omega)]
      · intro j h1 h2
        by_cases hji : j = i
        · subst hji
          refine ⟨nm.word, ?_⟩
          rw [e3 j (by omega), List.getElem?_set, if_pos rfl, if_pos (by omega)]
        · exact e4 j (by omega) h2
    · refine ⟨arr, by simp [copyLoop, hi], hlen, fun _ _ => rfl, ?_⟩
      intro j h1 h2; omega

theorem skipLoop_spec (heap : List WordNode) (rank : Nat) (repWord : Word) (l : List Nat) :
    ∀ (i : Nat) (arr : List (Option Word)),
      (∀ m ∈ l, ∃ nm : WordNode, heap[m]? = some nm ∧ nm.word ≠ repWord) →
      arr.length = rank → rank ≤ i + l.length →
      ∃ arr', skipLoop heap rank repWord i l arr = some arr' ∧ arr'.length = rank ∧
        (∀ j, j < i → arr'[j]? = arr[j]?) ∧
        (∀ j, i ≤ j → j < rank → ∃ w, arr'[j]? = some (some w)) := by
  induction l with
  | nil =>
    intro i arr _ hlen hle
    simp only [List.length_nil, Nat.add_zero] at hle
    refine ⟨arr, by simp [skipLoop, Nat.not_lt.2 hle], hlen, fun _ _ => rfl, ?_⟩
    intro j h1 h2; omega
  | cons m rest ih =>
    intro i arr hv hlen hle
    by_cases hi : i < rank
    · obtain ⟨nm, hnm, hne⟩ := hv m (by simp)
      have hw : writeSlot arr i nm.word = some (arr.set i (some nm.word)) := by
        unfold writeSlot; rw [if_pos (by omega)]
      obtain ⟨arr', e1, e2, e3, e4⟩ := ih (i + 1) (arr.set i (some nm.word))
        (fun x hx => hv x (by simp [hx])) (by simpa using hlen)
        (by simp only [List.length_cons] at hle; omega)
      refine ⟨arr', by simp only [skipLoop, if_pos hi, hnm, if_neg hne, hw]; exact e1, e2, ?_, ?_⟩
      · intro j hj
        rw [e3 j (by omega), List.getElem?_set, if_neg (by omega)]
      · intro j h1 h2
        by_cases hji : j = i
        · subst hji
          refine ⟨nm.word, ?_⟩
          rw [e3 j (by omega), List.getElem?_set, if_pos rfl, if_pos (by omega)]
        · exact e4 j (by omega) h2
    · refine ⟨arr, by simp [skipLoop, hi], hlen, fun _ _ => rfl, ?_⟩
      intro j h1 h2; omega

/-- The members of a group, counted: a representative of rank `k` heads a
group of `k + 1` entries. -/
theorem groupSize_eq (heap : List WordNode) (hf : Forest heap) (r : Nat) (nr : WordNode)
    (hr : heap[r]? = some nr) (hrr : nr.isRepresentative = true) :
    groupSize heap r = nr.rank + 1 := by
  obtain ⟨_, h2, h3, h4⟩ := hf.rep_ok r nr hr hrr
  unfold groupSize
  rw [List.countP_eq_length_filter]
  have hnd : (r :: nr.list).Nodup := by
    rw [List.nodup_cons]
    exact ⟨fun h => rep_ne_mem heap hf r r nr nr hr hrr h r hr hrr rfl, h3⟩
  have hperm : ((List.range heap.length).filter
      (fun p => GetRepresentative heap (heap.length + 1) (some p) == some r)).Perm
      (r :: nr.list) := by
    rw [List.perm_ext_iff_of_nodup ((List.nodup_range _).filter _) hnd]
    intro p
    simp only [List.mem_filter, List.mem_range, beq_iff_eq, List.mem_cons]
    rw [root_iff heap hf]
    constructor
    · rintro ⟨_, n, hn, hc⟩
      rcases hc with ⟨_, e⟩ | ⟨e1, e2⟩
      · exact Or.inl e.symm
      · obtain ⟨_, _, r', nr', a1, a2, _, a4⟩ := hf.mem_ok p n hn e1
        rw [e2] at a1; cases a1
        rw [hr] at a2; cases a2
        exact Or.inr a4
    · rintro (rfl | h)
      · exact ⟨getElem?_lt _ _ _ hr, nr, hr, Or.inl ⟨hrr, rfl⟩⟩
      · obtain ⟨nm, a1, a2, a3⟩ := h4 p h
        exact ⟨getElem?_lt _ _ _ a1, nm, a1, Or.inr ⟨a2, a3⟩⟩
  rw [hperm.length_eq, List.length_cons, h2]

/-- The array `synonyms_get` returns for a known word of a well-formed
dictionary. -/
theorem synonyms_get_spec (s : Synonyms) (hs : WF s) (x : Word) (hk : Known s x) :
    ∃ (r : Nat) (nr : WordNode) (arr : List (Option Word)),
      representative s x = some r ∧ s.heap[r]? = some nr ∧
      synonyms_get s x = some arr ∧ arr.length = nr.rank ∧
      (∀ j, j < nr.rank → ∃ w, arr[j]? = some (some w)) := by
  obtain ⟨p, n, hn, rfl⟩ := hk
  obtain ⟨r, nr, e1, e2, e3, e4⟩ := root_total s.heap hs.forest p n hn
  obtain ⟨_, h2, h3, h4⟩ := hs.forest.rep_ok r nr e2 e3
  have hrep : representative s n.word = some r := by
    unfold representative
    rw [find_known s hs.tbl p n hn]; exact e1
  unfold synonyms_get
  rw [find_known s hs.tbl p n hn]
  simp only [e1, e2]
  by_cases hw : nr.word = n.word
  · rw [if_pos hw]
    obtain ⟨arr', a1, a2, _, a4⟩ := copyLoop_spec s.heap nr.rank nr.list 0
      (List.replicate nr.rank none)
      (fun m hm => let ⟨nm, b1, _⟩ := h4 m hm; ⟨nm, b1⟩) (by simp) (by omega)
    exact ⟨r, nr, arr', hrep, e2, a1, a2, fun j hj => a4 j (Nat.zero_le _) hj⟩
  · rw [if_neg hw]
    have hpr : p ≠ r := by
      rintro rfl
      rw [hn] at e2; cases e2
      exact hw rfl
    have hmem : p ∈ nr.list := by
      rcases e4 with e | e
      · exact absurd e.symm hpr
      · exact e
    have hpos : 0 < nr.rank := by
      rw [h2]; exact List.length_pos_of_mem hmem
    have hw0 : writeSlot (List.replicate nr.rank none) 0 nr.word =
        some ((List.replicate nr.rank none).set 0 (some nr.word)) := by
      unfold writeSlot; rw [if_pos (by simpa using hpos)]
    rw [hw0]
    obtain ⟨arr', a1, a2, a3, a4⟩ := skipLoop_spec s.heap nr.rank nr.word nr.list 1
      ((List.replicate nr.rank none).set 0 (some nr.word))
      (by
        intro m hm
        obtain ⟨nm, b1, _⟩ := h4 m hm
        refine ⟨nm, b1, fun hne => ?_⟩
        have := hs.tbl.word_inj m r nm nr b1 e2 hne
        exact rep_ne_mem s.heap hs.forest r m nr nr e2 e3 hm r e2 e3 this)
      (by simp) (by omega)
    refine ⟨r, nr, arr', hrep, e2, a1, a2, ?_⟩
    intro j hj
    by_cases hj0 : j = 0
    · subst hj0
      refine ⟨nr.word, ?_⟩
      rw [a3 0 (by omega), List.getElem?_set, if_pos rfl, if_pos (by simpa using hpos)]
    · exact a4 j (by omega) hj

/-! ### The partition of the words -/

theorem groupSetoid_rel (s : Synonyms) (x y : Word) :
    (groupSetoid s) x y ↔ x = y ∨ SameGroup s x y := Iff.rfl

theorem callSetoid_rel (l : List Word) (x y : Word) (hx : x ∈ l) (hy : y ∈ l) :
    (callSetoid l) x y := Relation.EqvGen.rel _ _ ⟨hx, hy⟩

/-- One call joins the partition with the class of its words. -/
theorem define_setoid (s s' : Synonyms) (hs : WF s) (w : Word) (ts : List Word)
    (h : synonyms_define s w ts = some s') :
    groupSetoid s' = groupSetoid s ⊔ callSetoid (w :: ts) := by
  obtain ⟨s'', e1, _, _, e4⟩ := define_spec s hs w ts (define_hashInRange s s' w ts h)
  rw [h] at e1; cases e1
  apply le_antisymm
  · rw [Setoid.le_def]
    intro x y hxy
    have hl : groupSetoid s ≤ groupSetoid s ⊔ callSetoid (w :: ts) := le_sup_left
    have hr : callSetoid (w :: ts) ≤ groupSetoid s ⊔ callSetoid (w :: ts) := le_sup_right
    have htouch : ∀ z, Touched s (w :: ts) z → ∃ t ∈ w :: ts,
        (groupSetoid s ⊔ callSetoid (w :: ts)) z t := by
      rintro z ⟨t, ht, hz⟩
      exact ⟨t, ht, Setoid.le_def.1 hl ((groupSetoid_rel s z t).2 hz)⟩
    rcases (groupSetoid_rel s' x y).1 hxy with rfl | hsg
    · exact Setoid.refl' _ x
    · rcases (e4 x y).1 hsg with hsg | ⟨hx, hy⟩
      · exact Setoid.le_def.1 hl (Or.inr hsg)
      · obtain ⟨t, ht, a1⟩ := htouch x hx
        obtain ⟨t', ht', a2⟩ := htouch y hy
        exact Setoid.trans' _ a1 (Setoid.trans' _
          (Setoid.le_def.1 hr (callSetoid_rel _ t t' ht ht')) (Setoid.symm' _ a2))
  · apply sup_le
    · rw [Setoid.le_def]
      intro x y hxy
      rcases (groupSetoid_rel s x y).1 hxy with rfl | hsg
      · exact Setoid.refl' _ x
      · exact Or.inr ((e4 x y).2 (Or.inl hsg))
    · apply Setoid.eqvGen_le
      rintro x y ⟨hx, hy⟩
      exact Or.inr ((e4 x y).2 (Or.inr ⟨⟨x, hx, Or.inl rfl⟩, ⟨y, hy, Or.inl rfl⟩⟩))

theorem sameGroup_known (s : Synonyms) (hs : WF s) (x y : Word) (h : SameGroup s x y) :
    Known s x ∧ Known s y := by
  obtain ⟨r, h1, h2⟩ := h
  exact ⟨(representative_isSome s hs x).1 ⟨r, h1⟩, (representative_isSome s hs y).1 ⟨r, h2⟩⟩

theorem init_not_known (x : Word) : ¬ Known synonyms_init x := by
  rintro ⟨p, n, hn, _⟩
  simp [synonyms_init] at hn

theorem init_setoid : groupSetoid synonyms_init = ⊥ := by
  apply le_antisymm _ bot_le
  rw [Setoid.le_def]
  intro x y hxy
  rcases (groupSetoid_rel _ x y).1 hxy with rfl | hsg
  · exact Setoid.refl' _ x
  · exact absurd (sameGroup_known _ synonyms_init_wf x y hsg).1 (init_not_known x)

/-- The partition after a sequence of calls is the join of the partition
before with the classes of the calls. -/
theorem runFrom_setoid (calls : List (Word × List Word)) :
    ∀ (s d : Synonyms), WF s → runFrom s calls = some d →
      groupSetoid s ≤ groupSetoid d ∧
      (∀ c ∈ calls, callSetoid (c.1 :: c.2) ≤ groupSetoid d) ∧
      ∀ T : Setoid Word, groupSetoid s ≤ T →
        (∀ c ∈ calls, callSetoid (c.1 :: c.2) ≤ T) → groupSetoid d ≤ T := by
  induction calls with
  | nil =>
    intro s d _ h
    cases h
    exact ⟨le_refl _, fun c hc => absurd hc (List.not_mem_nil c), fun T hT _ => hT⟩
  | cons c cs ih =>
    intro s d hs h
    simp only [runFrom] at h
    cases hd : synonyms_define s c.1 c.2 with
    | none => rw [hd] at h; cases h
    | some s1 =>
      rw [hd] at h
      simp only at h
      have hs1 := define_wf s s1 hs c.1 c.2 hd
      have hset := define_setoid s s1 hs c.1 c.2 hd
      obtain ⟨a1, a2, a3⟩ := ih s1 d hs1 h
      refine ⟨?_, ?_, ?_⟩
      · exact le_trans (by rw [hset]; exact le_sup_left) a1
      · intro c' hc'
        rcases List.mem_cons.1 hc' with rfl | hc'
        · exact le_trans (by rw [hset]; exact le_sup_right) a1
        · exact a2 c' hc'
      · intro T hT hc
        apply a3 T
        · rw [hset]
          exact sup_le hT (hc c (by simp))
        · exact fun c' hc' => hc c' (by simp [hc'])

theorem linked_eq_setoid (calls : List (Word × List Word)) (d : Synonyms)
    (h : run calls = some d) (x y : Word) :
    Linked calls x y ↔ (groupSetoid d) x y := by
  obtain ⟨_, a2, a3⟩ := runFrom_setoid calls synonyms_init d synonyms_init_wf h
  constructor
  · intro hl
    have : Relation.EqvGen.setoid (Together calls) ≤ groupSetoid d := by
      apply Setoid.eqvGen_le
      rintro a b ⟨c, hc, ha, hb⟩
      exact Setoid.le_def.1 (a2 c hc) (callSetoid_rel _ a b ha hb)
    exact Setoid.le_def.1 this hl
  · intro hg
    have : groupSetoid d ≤ Relation.EqvGen.setoid (Together calls) := by
      apply a3
      · rw [init_setoid]; exact bot_le
      · intro c hc
        apply Setoid.eqvGen_le
        rintro a b ⟨ha, hb⟩
        exact Relation.EqvGen.rel _ _ ⟨c, hc, ha, hb⟩
    exact Setoid.le_def.1 this hg

theorem reachable_runFrom (s d : Synonyms) (hs : Reachable s) (calls : List (Word × List Word))
    (h : runFrom s calls = some d) : Reachable d := by
  obtain ⟨cs0, h0⟩ := hs
  refine ⟨cs0 ++ calls, ?_⟩
  have key : ∀ (l : List (Word × List Word)) (a b : Synonyms), runFrom a l = some b →
      runFrom a (l ++ calls) = runFrom b calls := by
    intro l
    induction l with
    | nil => intro a b hab; cases hab; rfl
    | cons c cs ih =>
      intro a b hab
      simp only [runFrom, List.cons_append] at hab ⊢
      cases hd : synonyms_define a c.1 c.2 with
      | none => rw [hd] at hab; cases hab
      | some a1 =>
        rw [hd] at hab
        exact ih a1 b hab
  unfold run
  rw [key cs0 synonyms_init s h0, h]

/-! ### The example dictionaries -/

set_option maxRecDepth 100000 in
theorem twoGroups_run : run twoGroupsCalls = some twoGroups := by decide
set_option maxRecDepth 100000 in
theorem scenario_run : run scenarioCalls = some scenarioDict := by decide
theorem dictABC_run : run [(wordA, [wordB, wordC])] = some dictABC := by decide
theorem dictA_run : run [(wordA, [])] = some dictA := by decide

theorem twoGroups_reachable : Reachable twoGroups := ⟨_, twoGroups_run⟩
theorem scenario_reachable : Reachable scenarioDict := ⟨_, scenario_run⟩
theorem dictABC_reachable : Reachable dictABC := ⟨_, dictABC_run⟩
theorem dictA_reachable : Reachable dictA := ⟨_, dictA_run⟩

/-! ### Claims about `synonyms_define` and `is_synonym` -/

/-- C2. After every sequence of `synonyms_define` calls on the empty
dictionary, `is_synonym(x, y)` returns true exactly when `x` and `y` have
different text and are linked by a chain of the calls; in particular it
returns true only then, and for two words that index the table inside its
bounds and are not linked it returns false. -/
theorem is_synonym_only_linked (calls : List (Word × List Word)) (d : Synonyms)
    (h : run calls = some d) (x y : Word) :
    (is_synonym d x y = some true ↔ x ≠ y ∧ Linked calls x y) ∧
    (HashInRange x → HashInRange y → ¬ Linked calls x y → is_synonym d x y = some false) := by
  have hwf := reachable_wf d ⟨calls, h⟩
  have hiff : is_synonym d x y = some true ↔ x ≠ y ∧ Linked calls x y := by
    rw [is_synonym_true_iff d hwf, linked_eq_setoid calls d h, groupSetoid_rel]
    constructor
    · rintro ⟨h1, h2⟩; exact ⟨h1, Or.inr h2⟩
    · rintro ⟨h1, h2 | h2⟩
      · exact absurd h2 h1
      · exact ⟨h1, h2⟩
  refine ⟨hiff, ?_⟩
  intro hx hy hl
  obtain ⟨b, e1, e2⟩ := is_synonym_spec d hwf x y hx hy
  cases b with
  | false => exact e1
  | true => exact absurd (hiff.1 e1).2 hl

set_option maxRecDepth 100000 in
/-- C2 at the scenario of the specification: `happy` and `sad` are not
synonyms, and are not linked by the calls. -/
theorem is_synonym_only_linked_witness :
    run scenarioCalls = some scenarioDict ∧
    is_synonym scenarioDict happy sad = some false ∧
    ¬ Linked scenarioCalls happy sad ∧
    (is_synonym scenarioDict happy cheerful = some true ↔
      happy ≠ cheerful ∧ Linked scenarioCalls happy cheerful) :=
  ⟨scenario_run, by decide,
    fun hl => absurd
      ((is_synonym_only_linked scenarioCalls scenarioDict scenario_run happy sad).1.2
        ⟨by decide, hl⟩) (by decide),
    (is_synonym_only_linked scenarioCalls scenarioDict scenario_run happy cheerful).1⟩

/-- The part of C6 that holds. `is_synonym(w, w)` is false for every word and
every dictionary, known word or not; on a dictionary reached by
`synonyms_define` calls `is_synonym(x, y)` is false whenever one of the two
words has no entry, provided both words index the table inside its bounds.
In these cases the function returns (the result is not `none`); it is a
function of the dictionary and cannot change it. -/
theorem is_synonym_false_cases (d : Synonyms) (x y : Word) :
    is_synonym d x x = some false ∧
    (Reachable d → HashInRange x → HashInRange y → ¬ Known d x ∨ ¬ Known d y →
      is_synonym d x y = some false) := by
  constructor
  · simp [is_synonym]
  · intro hd hx hy hk
    have hwf := reachable_wf d hd
    obtain ⟨b, e1, e2⟩ := is_synonym_spec d hwf x y hx hy
    cases b with
    | false => exact e1
    | true =>
      obtain ⟨k1, k2⟩ := sameGroup_known d hwf x y (e2.1 rfl).2
      rcases hk with hk | hk
      · exact absurd k1 hk
      · exact absurd k2 hk

set_option maxRecDepth 100000 in
/-- The part of C6 that holds, at the scenario: `ghost` has no entry, `happy`
has one. -/
theorem is_synonym_false_cases_witness :
    Reachable scenarioDict ∧ HashInRange happy ∧ HashInRange ghost ∧
    ¬ Known scenarioDict ghost ∧
    is_synonym scenarioDict happy happy = some false ∧
    is_synonym scenarioDict happy ghost = some false :=
  have hk : ¬ Known scenarioDict ghost :=
    find_none_unknown scenarioDict (reachable_wf _ scenario_reachable).tbl ghost (by decide)
  ⟨scenario_reachable, by decide, by decide, hk,
    (is_synonym_false_cases scenarioDict happy ghost).1,
    (is_synonym_false_cases scenarioDict happy ghost).2 scenario_reachable
      (by decide) (by decide) (Or.inr hk)⟩

set_option maxRecDepth 100000 in
/-- C6 fails on the code. On the dictionary after `define(a)`, whose only
entry is `a`, the word `é` (UTF-8 bytes `0xC3 0xA9` read through a signed
`char`) has no entry, and `is_synonym(a, é)` does not return false:
`FindWordNode` computes the bucket index `-73` and reads `table[-73]`, outside
the table, before the test for a missing entry is reached. The defect is the
negative value of `getHashVal` (C10). -/
theorem is_synonym_unknown_fails :
    run [(wordA, [])] = some dictA ∧
    dictA.heap.map WordNode.word = [wordA] ∧
    getHashVal eAcute = -73 ∧
    FindWordNode dictA wordA = some (some 0) ∧
    FindWordNode dictA eAcute = none ∧
    is_synonym dictA wordA eAcute = none ∧
    is_synonym dictA eAcute wordA = none := by
  decide

/-! ### Claims about `synonyms_get` -/

set_option maxRecDepth 100000 in
/-- C3 fails on the code. After `define(a, b, c)` the call `synonyms_get(b)`
returns `[a, b]`: the loop compares each member with the text of the
representative (`w` was reassigned by `w = GetRepresentative(w)`) instead of the
queried word, so `b` itself is listed and `c`, the last member, is not. The
list the specification describes is `[a, c]`. -/
theorem synonyms_get_lists_queried_word :
    run [(wordA, [wordB, wordC])] = some dictABC ∧
    synonyms_get dictABC wordB = some [some wordA, some wordB] ∧
    specSynonymsOf dictABC wordB = some [wordA, wordC] := by
  decide

/-- C4. For every dictionary reached by `synonyms_define` calls and every
known word `x`, `synonyms_get(x)` returns; the array has exactly `R.rank`
slots, `R` the representative of the group of `x`, every slot of it is
written and no store falls outside it; and `R.rank + 1` is the number of
entries whose representative is `R`. -/
theorem synonyms_get_length (d : Synonyms) (hd : Reachable d) (x : Word) (hk : Known d x) :
    ∃ (r : Nat) (nr : WordNode) (arr : List (Option Word)),
      representative d x = some r ∧ d.heap[r]? = some nr ∧
      nr.isRepresentative = true ∧
      synonyms_get d x = some arr ∧ arr.length = nr.rank ∧
      (∀ j, j < nr.rank → ∃ w, arr[j]? = some (some w)) ∧
      groupSize d.heap r = nr.rank + 1 := by
  have hwf := reachable_wf d hd
  obtain ⟨r, nr, arr, e1, e2, e3, e4, e5⟩ := synonyms_get_spec d hwf x hk
  obtain ⟨nr', a1, a2⟩ := representative_isRep d hwf x r e1
  rw [e2] at a1; cases a1
  exact ⟨r, nr, arr, e1, e2, a2, e3, e4, e5, groupSize_eq d.heap hwf.forest r nr e2 a2⟩

set_option maxRecDepth 100000 in
/-- C4 at `define(a, b, c)` and the word `b`. -/
theorem synonyms_get_length_witness :
    Reachable dictABC ∧ Known dictABC wordB ∧
    ∃ (r : Nat) (nr : WordNode) (arr : List (Option Word)),
      representative dictABC wordB = some r ∧ dictABC.heap[r]? = some nr ∧
      nr.isRepresentative = true ∧
      synonyms_get dictABC wordB = some arr ∧ arr.length = nr.rank ∧
      (∀ j, j < nr.rank → ∃ w, arr[j]? = some (some w)) ∧
      groupSize dictABC.heap r = nr.rank + 1 :=
  have hk : Known dictABC wordB :=
    ⟨1, { word := wordB, parent := some 0, isRepresentative := false, rank := 0, list := [] },
      by decide, rfl⟩
  ⟨dictABC_reachable, hk, synonyms_get_length dictABC dictABC_reachable wordB hk⟩

set_option maxRecDepth 100000 in
/-- C5 fails on the code. For a word without entry `FindWordNode` returns
`NULL`, and `synonyms_get` passes it to `GetRepresentative`, which reads
`w->isRepresentative`: the call does not return the empty result. -/
theorem synonyms_get_unknown_fails :
    run scenarioCalls = some scenarioDict ∧
    FindWordNode scenarioDict ghost = some none ∧
    synonyms_get scenarioDict ghost = none ∧
    synonyms_get synonyms_init ghost = none := by
  decide

/-- On every dictionary, `synonyms_get` of a word that `FindWordNode` does not
find dereferences the null pointer. -/
theorem synonyms_get_of_not_found (s : Synonyms) (w : Word)
    (h : FindWordNode s w = some none) : synonyms_get s w = none := by
  unfold synonyms_get
  rw [h]
  rfl

/-! ### Claims about re-definition, insertion and hashing -/

set_option maxRecDepth 100000 in
/-- C9 fails on the code: `InsertWordNode` does not look for an existing
entry. On the dictionary after `define(a)`, which holds an entry with text
`a`, `InsertWordNode(a)` adds a second entry with text `a`. -/
theorem insert_adds_duplicate :
    run [(wordA, [])] = some dictA ∧
    dictA.heap.map WordNode.word = [wordA] ∧
    (InsertWordNode dictA wordA).map (fun r => (r.1.heap.map WordNode.word, r.2)) =
      some ([wordA, wordA], 1) := by
  decide

/-- C9 as the code has it. On every dictionary reached by `synonyms_define`
calls, `InsertWordNode(w)` appends one new representative entry with text `w`
(rank 0, no parent, no members) whenever `w` indexes the table inside its
bounds, whether or not an entry with that text exists: the entries before are
kept, the new entry is linked at the end of the chain of its bucket, and no
other bucket changes. And the dictionary holds no two entries with the same
text, since `synonyms_define` inserts only after `FindWordNode` returned
`NULL`. -/
theorem insert_appends_and_texts_unique (d : Synonyms) (hd : Reachable d) (w : Word)
    (hw : HashInRange w) :
    (∃ (s' : Synonyms) (chain : List Nat),
      InsertWordNode d w = some (s', d.heap.length) ∧
      s'.heap = d.heap ++ [{ word := w, parent := none, isRepresentative := true,
                             rank := 0, list := [] }] ∧
      bucket d (getHashVal w) = some chain ∧
      bucket s' (getHashVal w) = some (chain ++ [d.heap.length]) ∧
      s'.table = d.table.set (getHashVal w).toNat (chain ++ [d.heap.length]) ∧
      (∀ i : Int, i ≠ getHashVal w → bucket s' i = bucket d i)) ∧
    (∀ (p q : Nat) (n m : WordNode), d.heap[p]? = some n → d.heap[q]? = some m →
      n.word = m.word → p = q) := by
  have hwf := reachable_wf d hd
  obtain ⟨chain, hb, hb2⟩ := bucket_isSome d hwf.tbl.table_len w hw
  have hklt : (getHashVal w).toNat < d.table.length := getElem?_lt _ _ _ hb2
  refine ⟨⟨_, chain, by unfold InsertWordNode; rw [hb], rfl, hb, ?_, rfl, ?_⟩,
    hwf.tbl.word_inj⟩
  · unfold bucket
    rw [if_pos (show 0 ≤ getHashVal w ∧ getHashVal w < (TABLE_SIZE : Int) from hw)]
    simp only [List.getElem?_set, if_pos hklt, if_true]
  · intro i hi
    unfold bucket
    by_cases hr : 0 ≤ i ∧ i < (TABLE_SIZE : Int)
    · rw [if_pos hr, if_pos hr]
      simp only [List.getElem?_set]
      rw [if_neg]
      intro h
      apply hi
      have h1 := Int.toNat_of_nonneg hr.1
      have h2 := Int.toNat_of_nonneg hw.1
      omega
    · rw [if_neg hr, if_neg hr]

set_option maxRecDepth 100000 in
/-- C9 as the code has it, at the dictionary after `define(a)` and the word
`a`: the second entry with text `a` is linked behind the first in bucket 97. -/
theorem insert_appends_and_texts_unique_witness :
    Reachable dictA ∧ HashInRange wordA ∧
    bucket dictA (getHashVal wordA) = some [0] ∧
    (InsertWordNode dictA wordA).map (fun r => bucket r.1 (getHashVal wordA)) =
      some (some [0, 1]) ∧
    (∃ (s' : Synonyms) (chain : List Nat),
      InsertWordNode dictA wordA = some (s', dictA.heap.length) ∧
      s'.heap = dictA.heap ++ [{ word := wordA, parent := none, isRepresentative := true,
                                 rank := 0, list := [] }] ∧
      bucket dictA (getHashVal wordA) = some chain ∧
      bucket s' (getHashVal wordA) = some (chain ++ [dictA.heap.length]) ∧
      s'.table = dictA.table.set (getHashVal wordA).toNat (chain ++ [dictA.heap.length]) ∧
      (∀ i : Int, i ≠ getHashVal wordA → bucket s' i = bucket dictA i)) :=
  ⟨dictA_reachable, by decide, by decide, by decide,
    (insert_appends_and_texts_unique dictA dictA_reachable wordA (by decide)).1⟩

set_option maxRecDepth 100000 in
/-- C10 fails on the code where `char` is signed: for the word `é` (UTF-8
bytes `0xC3 0xA9`, read as the chars `-61`, `-87`) `getHashVal` returns `-73`,
which is no index of the table, so that `FindWordNode` reads outside
`table`. The fold of the specification gives the same value: nothing
overflows, the remainder of a negative number is negative. -/
theorem getHashVal_negative :
    eAcute = [-61, -87] ∧ getHashVal eAcute = -73 ∧ specHash eAcute = -73 ∧
    ¬ HashInRange eAcute ∧ FindWordNode synonyms_init eAcute = none := by
  decide

/-- The part of C10 that holds: for characters in the range of `char`, signed
or unsigned, the 64-bit accumulator never overflows, the result is the fold
of the specification and lies strictly between -100 and 100; it is a bucket
index in `[0, 100)` when no character is negative. -/
theorem getHashVal_range (word : Word) (hc : ∀ c ∈ word, -128 ≤ c ∧ c ≤ 255) :
    getHashVal word = specHash word ∧ -100 < getHashVal word ∧ getHashVal word < 100 ∧
    ((∀ c ∈ word, 0 ≤ c) → HashInRange word) := by
  obtain ⟨h1, h2, h3⟩ := getHashVal_eq_specHash word hc
  exact ⟨h1, h2, h3, fun hpos =>
    hashInRange_of_nonneg word (fun c hx => ⟨hpos c hx, (hc c hx).2⟩)⟩

/-! ### Claim about the order of calls -/

theorem findInChain_snoc_heap (heap : List WordNode) (x : WordNode) (w : Word)
    (chain : List Nat) (hv : ∀ p ∈ chain, p < heap.length) :
    findInChain (heap ++ [x]) w chain = findInChain heap w chain := by
  induction chain with
  | nil => rfl
  | cons p rest ih =>
    have hp : p < heap.length := hv p (by simp)
    simp only [findInChain, List.getElem?_append_left hp]
    rw [ih (fun q hq => hv q (by simp [hq]))]

theorem findInChain_append (heap : List WordNode) (w : Word) (c1 c2 : List Nat) :
    findInChain heap w (c1 ++ c2) =
      match findInChain heap w c1 with
      | some none => findInChain heap w c2
      | r => r := by
  induction c1 with
  | nil => rfl
  | cons p rest ih =>
    simp only [List.cons_append, findInChain]
    cases hp : heap[p]? with
    | none => rfl
    | some n =>
      simp only
      by_cases hw : w = n.word
      · simp only [if_pos hw]
      · simp only [if_neg hw]
        exact ih

/-- The part of C11 that holds. On every table with `TABLE_SIZE` buckets whose
chains hold pointers to allocated entries, and every word `w` without entry
that indexes the table inside its bounds: `FindWordNode(w)` returns `NULL`;
`InsertWordNode(w)` returns a new entry with text `w` that is a representative
of rank 0 without parent and members, linked at the end of the chain of its
bucket; afterwards `FindWordNode(w)` returns that entry, the old entries are
untouched, and for every other word `FindWordNode` returns what it returned
before. -/
theorem insert_then_find (s : Synonyms) (hl : s.table.length = TABLE_SIZE)
    (hv : ∀ (i : Nat) (chain : List Nat), s.table[i]? = some chain →
      ∀ p ∈ chain, p < s.heap.length)
    (w : Word) (hw : HashInRange w) (hk : ¬ Known s w) :
    FindWordNode s w = some none ∧
    ∃ (s' : Synonyms) (chain : List Nat),
      InsertWordNode s w = some (s', s.heap.length) ∧
      FindWordNode s' w = some (some s.heap.length) ∧
      s'.heap[s.heap.length]? = some { word := w, parent := none, isRepresentative := true,
                                       rank := 0, list := [] } ∧
      bucket s (getHashVal w) = some chain ∧
      bucket s' (getHashVal w) = some (chain ++ [s.heap.length]) ∧
      (∀ p, p < s.heap.length → s'.heap[p]? = s.heap[p]?) ∧
      ∀ v, v ≠ w → FindWordNode s' v = FindWordNode s v := by
  obtain ⟨chain, hb, hb2⟩ := bucket_isSome s hl w hw
  have hklt : (getHashVal w).toNat < s.table.length := getElem?_lt _ _ _ hb2
  have hchain := hv _ chain hb2
  have hvalid : ∀ p ∈ chain, ∃ n : WordNode, s.heap[p]? = some n :=
    fun p hp => ⟨_, List.getElem?_eq_getElem (hchain p hp)⟩
  -- the lookup before the insertion
  have hfind : findInChain s.heap w chain = some none := by
    obtain ⟨res, hres, _, h2⟩ := findInChain_spec s.heap w chain hvalid
    cases res with
    | none => exact hres
    | some q =>
      obtain ⟨_, n, hn, hnw⟩ := h2 q rfl
      exact absurd ⟨q, n, hn, hnw⟩ hk
  have hnew : (s.heap ++ [GetNewWordNode w])[s.heap.length]? = some (GetNewWordNode w) :=
    List.getElem?_concat_length _ _
  -- the buckets after the insertion
  have hbucket : ∀ v : Word,
      bucket { heap := s.heap ++ [GetNewWordNode w],
               table := s.table.set (getHashVal w).toNat (chain ++ [s.heap.length]) }
        (getHashVal v) =
      if getHashVal v = getHashVal w then some (chain ++ [s.heap.length])
      else bucket s (getHashVal v) := by
    intro v
    unfold bucket
    by_cases hr : 0 ≤ getHashVal v ∧ getHashVal v < (TABLE_SIZE : Int)
    · rw [if_pos hr, if_pos hr]
      simp only [List.getElem?_set]
      by_cases he : getHashVal v = getHashVal w
      · rw [if_pos he, he, if_pos rfl, if_pos hklt]
      · rw [if_neg he, if_neg]
        intro h
        apply he
        have h1 := Int.toNat_of_nonneg hr.1
        have h2 := Int.toNat_of_nonneg hw.1
        omega
    · rw [if_neg hr, if_neg hr, if_neg]
      intro he
      exact hr (he ▸ hw)
  refine ⟨by unfold FindWordNode; rw [hb]; exact hfind, _, chain,
    by unfold InsertWordNode; rw [hb], ?_, hnew, hb, ?_, ?_, ?_⟩
  · unfold FindWordNode
    rw [hbucket w, if_pos rfl]
    simp only
    rw [findInChain_append, findInChain_snoc_heap _ _ _ _ hchain, hfind]
    simp only [findInChain, hnew]
    simp [GetNewWordNode]
  · rw [hbucket w, if_pos rfl]
  · intro p hp
    exact List.getElem?_append_left hp
  · intro v hvw
    unfold FindWordNode
    rw [hbucket v]
    by_cases he : getHashVal v = getHashVal w
    · rw [if_pos he, he, hb]
      simp only
      rw [findInChain_append, findInChain_snoc_heap _ _ _ _ hchain]
      obtain ⟨res, hres, _, _⟩ := findInChain_spec s.heap v chain hvalid
      rw [hres]
      cases res with
      | some q => rfl
      | none =>
        simp only [findInChain, hnew]
        simp [GetNewWordNode, hvw]
    · rw [if_neg he]
      cases hbv : bucket s (getHashVal v) with
      | none => rfl
      | some ch =>
        simp only
        exact findInChain_snoc_heap _ _ _ _ (hv _ ch (bucket_eq_some s _ ch hbv).2.2)

set_option maxRecDepth 100000 in
/-- The part of C11 that holds, at the dictionary after `define(a)` and the
word `b`. -/
theorem insert_then_find_witness :
    dictA.table.length = TABLE_SIZE ∧ HashInRange wordB ∧ ¬ Known dictA wordB ∧
    FindWordNode dictA wordB = some none ∧
    (InsertWordNode dictA wordB).map (fun r => FindWordNode r.1 wordB) =
      some (some (some 1)) ∧
    (InsertWordNode dictA wordB).map (fun r => FindWordNode r.1 wordA) =
      some (FindWordNode dictA wordA) :=
  have hk : ¬ Known dictA wordB :=
    find_none_unknown dictA (reachable_wf _ dictA_reachable).tbl wordB (by decide)
  ⟨by decide, by decide, hk,
    (insert_then_find dictA (by decide)
      (fun i chain hc p hp =>
        let ⟨_, hn, _⟩ := (reachable_wf _ dictA_reachable).tbl.chain_ok i chain hc p hp
        getElem?_lt _ _ _ hn)
      wordB (by decide) hk).1,
    by decide, by decide⟩

set_option maxRecDepth 100000 in
/-- C11 fails on the code. The word `é` (UTF-8 bytes `0xC3 0xA9` read through
a signed `char`) has no entry in the empty dictionary, nor in the dictionary
after `define(a)`, but `FindWordNode(é)` does not return `NULL` and
`InsertWordNode(é)` inserts nothing that a lookup could return: both read
`table[-73]`, outside the table. The defect is the negative value of
`getHashVal` (C10). -/
theorem find_outside_table_fails :
    synonyms_init.heap = [] ∧
    dictA.heap.map WordNode.word = [wordA] ∧
    getHashVal eAcute = -73 ∧
    FindWordNode synonyms_init eAcute = none ∧
    InsertWordNode synonyms_init eAcute = none ∧
    FindWordNode dictA eAcute = none ∧
    InsertWordNode dictA eAcute = none := by
  decide

/-! ### Claim about the merge by rank -/

/-- The fields of the two entries after `a` has absorbed `b`, for any nodes
in which the member list of `b` holds pointers to allocated entries. -/
theorem absorb_fields (heap : List WordNode) (a b : Nat) (na nb : WordNode) (hab : a ≠ b)
    (ha : heap[a]? = some na) (hb : heap[b]? = some nb)
    (hv : ∀ m ∈ nb.list, m < heap.length) :
    ∃ (heap' : List WordNode) (na' nb' : WordNode),
      absorb heap a b = some heap' ∧ heap'.length = heap.length ∧
      heap'[a]? = some na' ∧ na'.isRepresentative = na.isRepresentative ∧
      na'.rank = na.rank + nb.rank + 1 ∧ na'.word = na.word ∧
      heap'[b]? = some nb' ∧ nb'.isRepresentative = false ∧ nb'.parent = some a ∧
      nb'.rank = 0 ∧ nb'.word = nb.word ∧ nb'.list = [] := by
  have hla := getElem?_lt _ _ _ ha
  have hlb := getElem?_lt _ _ _ hb
  have hba : b ≠ a := fun h => hab h.symm
  obtain ⟨h4, hu1, hu2, hu3⟩ := updateParent_spec a nb.list
    (((heap.set b { nb with parent := some a, isRepresentative := false }).set a
        { na with rank := na.rank + (nb.rank + 1) }).set b
        { nb with parent := some a, isRepresentative := false, rank := 0 }) (by
      intro m hm
      have hm' := hv m hm
      exact ⟨_, List.getElem?_eq_getElem (by simpa using hm')⟩)
  have h4len : h4.length = heap.length := by simpa using hu2
  obtain ⟨na4, h4a, a1, a2, a3⟩ : ∃ na4 : WordNode, h4[a]? = some na4 ∧
      na4.isRepresentative = na.isRepresentative ∧ na4.rank = na.rank + (nb.rank + 1) ∧
      na4.word = na.word := by
    have h3a : (((heap.set b { nb with parent := some a, isRepresentative := false }).set a
        { na with rank := na.rank + (nb.rank + 1) }).set b
        { nb with parent := some a, isRepresentative := false, rank := 0 })[a]? =
        some { na with rank := na.rank + (nb.rank + 1) } := by
      rw [List.getElem?_set, if_neg hba, List.getElem?_set]
      simp [hlb, hla]
    rw [hu3 a, h3a]
    by_cases hmem : a ∈ nb.list
    · rw [if_pos hmem]; exact ⟨_, rfl, rfl, rfl, rfl⟩
    · rw [if_neg hmem]; exact ⟨_, rfl, rfl, rfl, rfl⟩
  obtain ⟨nb4, h4b, b1, b2, b3, b4⟩ : ∃ nb4 : WordNode, h4[b]? = some nb4 ∧
      nb4.isRepresentative = false ∧ nb4.parent = some a ∧ nb4.rank = 0 ∧
      nb4.word = nb.word := by
    have h3b : (((heap.set b { nb with parent := some a, isRepresentative := false }).set a
        { na with rank := na.rank + (nb.rank + 1) }).set b
        { nb with parent := some a, isRepresentative := false, rank := 0 })[b]? =
        some { nb with parent := some a, isRepresentative := false, rank := 0 } := by
      rw [List.getElem?_set]
      simp [hlb, hla]
    rw [hu3 b, h3b]
    by_cases hmem : b ∈ nb.list
    · rw [if_pos hmem]; exact ⟨_, rfl, rfl, rfl, rfl, rfl⟩
    · rw [if_neg hmem]; exact ⟨_, rfl, rfl, rfl, rfl, rfl⟩
  unfold absorb
  simp only [hb]
  have e1 : (heap.set b { nb with parent := some a, isRepresentative := false })[a]? = some na := by
    rw [List.getElem?_set, if_neg hba]; exact ha
  have e2 : (heap.set b { nb with parent := some a, isRepresentative := false })[b]? =
      some { nb with parent := some a, isRepresentative := false } := by
    rw [List.getElem?_set]; simp [hlb]
  simp only [e1, e2]
  have e3 : ((heap.set b { nb with parent := some a, isRepresentative := false }).set a
      { na with rank := na.rank + (nb.rank + 1) })[b]? =
      some { nb with parent := some a, isRepresentative := false } := by
    rw [List.getElem?_set, if_neg hab]; exact e2
  simp only [e3]
  have e4 : (((heap.set b { nb with parent := some a, isRepresentative := false }).set a
      { na with rank := na.rank + (nb.rank + 1) }).set b
      { nb with parent := some a, isRepresentative := false, rank := 0 })[b]? =
      some { nb with parent := some a, isRepresentative := false, rank := 0 } := by
    rw [List.getElem?_set]; simp [hlb]
  simp only [e4, hu1]
  simp only [h4a, h4b]
  have e5 : ∀ na5 : WordNode, (h4.set a na5)[b]? = some nb4 := by
    intro na5
    rw [List.getElem?_set, if_neg hab]; exact h4b
  have fin : ∀ l : List Nat, ∃ (heap' : List WordNode) (na' nb' : WordNode),
      some ((h4.set a { na4 with list := l }).set b { nb4 with list := [] }) = some heap' ∧
      heap'.length = heap.length ∧
      heap'[a]? = some na' ∧ na'.isRepresentative = na.isRepresentative ∧
      na'.rank = na.rank + nb.rank + 1 ∧ na'.word = na.word ∧
      heap'[b]? = some nb' ∧ nb'.isRepresentative = false ∧ nb'.parent = some a ∧
      nb'.rank = 0 ∧ nb'.word = nb.word ∧ nb'.list = [] := by
    intro l
    refine ⟨_, { na4 with list := l }, { nb4 with list := [] }, rfl, by simp [h4len],
      ?_, a1, by rw [show ({ na4 with list := l } : WordNode).rank = na4.rank from rfl, a2]; omega,
      a3, ?_, b1, b2, b3, b4, rfl⟩
    · rw [List.getElem?_set, if_neg hba, List.getElem?_set]
      simp [h4len, hla]
    · rw [List.getElem?_set]
      simp [h4len, hlb]
  by_cases hnl : na4.list = []
  · simp only [if_pos hnl, e5]
    exact fin _
  · simp only [if_neg hnl, e5]
    exact fin _

/-- C12. `AddSynonyms` on two distinct representatives `p1`, `p2` (the member
lists holding pointers to allocated entries) returns `p1` when
`p1.rank >= p2.rank` and `p2` otherwise; the returned entry is still a
representative and its rank is `p1.rank + p2.rank + 1`; the other entry has
`isRepresentative` cleared, its parent is the returned entry and its rank is
0; no text changes. `AddSynonyms(p, p)` returns `p` and the same nodes. -/
theorem addSynonyms_by_rank (heap : List WordNode) (p1 p2 : Nat) (n1 n2 : WordNode)
    (h1 : heap[p1]? = some n1) (h2 : heap[p2]? = some n2)
    (hr1 : n1.isRepresentative = true) (hr2 : n2.isRepresentative = true)
    (hne : p1 ≠ p2) (hv : ∀ m ∈ n1.list ++ n2.list, m < heap.length) :
    (∀ p, AddSynonyms heap p p = some (heap, p)) ∧
    ∃ (heap' : List WordNode) (a b : Nat) (na nb : WordNode),
      AddSynonyms heap p1 p2 = some (heap', a) ∧
      ((n1.rank ≥ n2.rank ∧ a = p1 ∧ b = p2) ∨ (n1.rank < n2.rank ∧ a = p2 ∧ b = p1)) ∧
      heap'.length = heap.length ∧
      heap'[a]? = some na ∧ na.isRepresentative = true ∧ na.rank = n1.rank + n2.rank + 1 ∧
      heap'[b]? = some nb ∧ nb.isRepresentative = false ∧ nb.parent = some a ∧
      nb.rank = 0 ∧
      (na.word = if a = p1 then n1.word else n2.word) ∧
      (nb.word = if b = p1 then n1.word else n2.word) := by
  refine ⟨fun p => by simp [AddSynonyms], ?_⟩
  unfold AddSynonyms
  rw [if_neg hne]
  simp only [h1, h2]
  by_cases hrank : n1.rank ≥ n2.rank
  · rw [if_pos hrank]
    obtain ⟨heap', na, nb, e1, e2, e3, e4, e5, e6, e7, e8, e9, e10, e11, _⟩ :=
      absorb_fields heap p1 p2 n1 n2 hne h1 h2 (fun m hm => hv m (by simp [hm]))
    refine ⟨heap', p1, p2, na, nb, by rw [e1]; rfl, Or.inl ⟨hrank, rfl, rfl⟩, e2, e3,
      by rw [e4, hr1], e5, e7, e8, e9, e10, by rw [if_pos rfl, e6], ?_⟩
    rw [if_neg (Ne.symm hne), e11]
  · rw [if_neg hrank]
    obtain ⟨heap', na, nb, e1, e2, e3, e4, e5, e6, e7, e8, e9, e10, e11, _⟩ :=
      absorb_fields heap p2 p1 n2 n1 (Ne.symm hne) h2 h1 (fun m hm => hv m (by simp [hm]))
    refine ⟨heap', p2, p1, na, nb, by rw [e1]; rfl, Or.inr ⟨by omega, rfl, rfl⟩, e2, e3,
      by rw [e4, hr2], by rw [e5]; omega, e7, e8, e9, e10,
      by rw [if_neg (Ne.symm hne), e6], ?_⟩
    rw [if_pos rfl, e11]

set_option maxRecDepth 100000 in
/-- C12 at the dictionary after `define(happy, glad, joyful); define(sad,
unhappy)`: `happy` (entry 0, rank 2) and `sad` (entry 3, rank 1) are the
representatives; in both argument orders `happy` absorbs `sad`, and two
representatives of equal rank are merged into the first. -/
theorem addSynonyms_by_rank_witness :
    twoGroups.heap[0]? = some { word := happy, parent := none, isRepresentative := true,
                                rank := 2, list := [1, 2] } ∧
    twoGroups.heap[3]? = some { word := sad, parent := none, isRepresentative := true,
                                rank := 1, list := [4] } ∧
    (AddSynonyms twoGroups.heap 3 0).map (fun r => r.2) = some 0 ∧
    (AddSynonyms [GetNewWordNode wordA, GetNewWordNode wordB] 1 0).map (fun r => r.2) =
      some 1 ∧
    ∃ (heap' : List WordNode) (a b : Nat) (na nb : WordNode),
      AddSynonyms twoGroups.heap 0 3 = some (heap', a) ∧
      (((2 : Nat) ≥ 1 ∧ a = 0 ∧ b = 3) ∨ ((2 : Nat) < 1 ∧ a = 3 ∧ b = 0)) ∧
      heap'.length = twoGroups.heap.length ∧
      heap'[a]? = some na ∧ na.isRepresentative = true ∧ na.rank = 2 + 1 + 1 ∧
      heap'[b]? = some nb ∧ nb.isRepresentative = false ∧ nb.parent = some a ∧
      nb.rank = 0 ∧
      (na.word = if a = 0 then happy else sad) ∧
      (nb.word = if b = 0 then happy else sad) :=
  ⟨by decide, by decide, by decide, by decide,
    (addSynonyms_by_rank twoGroups.heap 0 3
      { word := happy, parent := none, isRepresentative := true, rank := 2, list := [1, 2] }
      { word := sad, parent := none, isRepresentative := true, rank := 1, list := [4] }
      (by decide) (by decide) rfl rfl (by decide) (by decide)).2⟩

/-! ### Claims about member lists and ranks -/

/-- C13. For two distinct representatives `p1`, `p2` of a dictionary reached
by `synonyms_define` calls, `AddSynonyms(p1, p2)` lets the one of greater or
equal rank (`p1` on a tie) absorb the other; afterwards the member list of
the absorber is its old list, then the absorbed representative, then the old
members of the absorbed group in their order (also when the old list of the
absorber was empty); the member list of the absorbed entry is empty; and every
former member of the absorbed group has the absorber as parent. -/
theorem addSynonyms_member_lists (d : Synonyms) (hd : Reachable d) (p1 p2 : Nat)
    (n1 n2 : WordNode) (h1 : d.heap[p1]? = some n1) (h2 : d.heap[p2]? = some n2)
    (hr1 : n1.isRepresentative = true) (hr2 : n2.isRepresentative = true) (hne : p1 ≠ p2) :
    ∃ (heap' : List WordNode) (a b : Nat) (na nb na' nb' : WordNode),
      AddSynonyms d.heap p1 p2 = some (heap', a) ∧
      ((n1.rank ≥ n2.rank ∧ a = p1 ∧ b = p2 ∧ na = n1 ∧ nb = n2) ∨
       (n1.rank < n2.rank ∧ a = p2 ∧ b = p1 ∧ na = n2 ∧ nb = n1)) ∧
      heap'[a]? = some na' ∧ na'.list = na.list ++ [b] ++ nb.list ∧
      heap'[b]? = some nb' ∧ nb'.list = [] ∧
      (∀ m ∈ nb.list, ∃ nm' : WordNode, heap'[m]? = some nm' ∧ nm'.parent = some a) := by
  have hwf := reachable_wf d hd
  have key : ∀ (a b : Nat) (na nb : WordNode), a ≠ b → d.heap[a]? = some na →
      d.heap[b]? = some nb → na.isRepresentative = true → nb.isRepresentative = true →
      nb.rank ≤ na.rank →
      ∃ (heap' : List WordNode) (na' nb' : WordNode), absorb d.heap a b = some heap' ∧
        heap'[a]? = some na' ∧ na'.list = na.list ++ [b] ++ nb.list ∧
        heap'[b]? = some nb' ∧ nb'.list = [] ∧
        (∀ m ∈ nb.list, ∃ nm' : WordNode, heap'[m]? = some nm' ∧ nm'.parent = some a) := by
    intro a b na nb hab ha hb hra hrb hrank
    obtain ⟨heap', e1, e2⟩ := absorb_absorbed d.heap hwf.forest a b na nb hab ha hb hra hrb hrank
    refine ⟨heap', _, _, e1, e2.at_a, rfl, e2.at_b, rfl, ?_⟩
    intro m hm
    obtain ⟨nm, a1, _, _⟩ := (hwf.forest.rep_ok b nb hb hrb).2.2.2 m hm
    exact ⟨_, e2.at_mem m nm hm a1, rfl⟩
  unfold AddSynonyms
  rw [if_neg hne]
  simp only [h1, h2]
  by_cases hrank : n1.rank ≥ n2.rank
  · rw [if_pos hrank]
    obtain ⟨heap', na', nb', e1, e2, e3, e4, e5, e6⟩ := key p1 p2 n1 n2 hne h1 h2 hr1 hr2 hrank
    exact ⟨heap', p1, p2, n1, n2, na', nb', by rw [e1]; rfl,
      Or.inl ⟨hrank, rfl, rfl, rfl, rfl⟩, e2, e3, e4, e5, e6⟩
  · rw [if_neg hrank]
    obtain ⟨heap', na', nb', e1, e2, e3, e4, e5, e6⟩ :=
      key p2 p1 n2 n1 (Ne.symm hne) h2 h1 hr2 hr1 (by omega)
    exact ⟨heap', p2, p1, n2, n1, na', nb', by rw [e1]; rfl,
      Or.inr ⟨by omega, rfl, rfl, rfl, rfl⟩, e2, e3, e4, e5, e6⟩

set_option maxRecDepth 100000 in
/-- C13 at the dictionary after `define(happy, glad, joyful); define(sad,
unhappy)`: `sad` (entry 3, member 4) is merged into `happy` (entry 0, members
1 and 2), whose member list becomes `[1, 2, 3, 4]`; and on two fresh entries,
where the list of the absorber is empty, it becomes `[1]`. -/
theorem addSynonyms_member_lists_witness :
    Reachable twoGroups ∧
    (AddSynonyms twoGroups.heap 0 3).map (fun r => (r.1.map WordNode.list, r.2)) =
      some ([[1, 2, 3, 4], [], [], [], []], 0) ∧
    (AddSynonyms dictA.heap 0 0).map (fun r => (r.1.map WordNode.list, r.2)) =
      some ([[]], 0) ∧
    (AddSynonyms [GetNewWordNode wordA, GetNewWordNode wordB] 0 1).map
      (fun r => (r.1.map WordNode.list, r.2)) = some ([[1], []], 0) ∧
    ∃ (heap' : List WordNode) (a b : Nat) (na nb na' nb' : WordNode),
      AddSynonyms twoGroups.heap 0 3 = some (heap', a) ∧
      (((2 : Nat) ≥ 1 ∧ a = 0 ∧ b = 3 ∧
          na = { word := happy, parent := none, isRepresentative := true, rank := 2,
                 list := [1, 2] } ∧
          nb = { word := sad, parent := none, isRepresentative := true, rank := 1,
                 list := [4] }) ∨
       ((2 : Nat) < 1 ∧ a = 3 ∧ b = 0 ∧
          na = { word := sad, parent := none, isRepresentative := true, rank := 1,
                 list := [4] } ∧
          nb = { word := happy, parent := none, isRepresentative := true, rank := 2,
                 list := [1, 2] })) ∧
      heap'[a]? = some na' ∧ na'.list = na.list ++ [b] ++ nb.list ∧
      heap'[b]? = some nb' ∧ nb'.list = [] ∧
      (∀ m ∈ nb.list, ∃ nm' : WordNode, heap'[m]? = some nm' ∧ nm'.parent = some a) :=
  ⟨twoGroups_reachable, by decide, by decide, by decide,
    addSynonyms_member_lists twoGroups twoGroups_reachable 0 3
      { word := happy, parent := none, isRepresentative := true, rank := 2, list := [1, 2] }
      { word := sad, parent := none, isRepresentative := true, rank := 1, list := [4] }
      (by decide) (by decide) rfl rfl (by decide)⟩

/-- C14. In every dictionary reached by `synonyms_define` calls, the member
list of every representative `R` has `R.rank` cells, and `R.rank + 1` is the
number of entries whose representative is `R`. -/
theorem rank_accounting (d : Synonyms) (hd : Reachable d) (r : Nat) (nr : WordNode)
    (hr : d.heap[r]? = some nr) (hrr : nr.isRepresentative = true) :
    nr.list.length = nr.rank ∧ groupSize d.heap r = nr.rank + 1 := by
  have hwf := reachable_wf d hd
  exact ⟨(hwf.forest.rep_ok r nr hr hrr).2.1.symm, groupSize_eq d.heap hwf.forest r nr hr hrr⟩

set_option maxRecDepth 100000 in
/-- C14 at the representative `happy` of the scenario of the specification:
rank 3, a group of four entries. -/
theorem rank_accounting_witness :
    Reachable scenarioDict ∧
    scenarioDict.heap[0]? = some { word := happy, parent := none, isRepresentative := true,
                                   rank := 3, list := [1, 2, 5] } ∧
    [1, 2, 5].length = 3 ∧ groupSize scenarioDict.heap 0 = 3 + 1 :=
  have h := rank_accounting scenarioDict scenario_reachable 0
    { word := happy, parent := none, isRepresentative := true, rank := 3, list := [1, 2, 5] }
    (by decide) rfl
  ⟨scenario_reachable, by decide, h.1, h.2⟩

/-- C15. In every dictionary reached by `synonyms_define` calls, the member
list of every representative `R` holds exactly the entries that are not
representatives and whose representative is `R`, each once, and not `R`. -/
theorem member_list_exact (d : Synonyms) (hd : Reachable d) (r : Nat) (nr : WordNode)
    (hr : d.heap[r]? = some nr) (hrr : nr.isRepresentative = true) :
    nr.list.Nodup ∧ r ∉ nr.list ∧
    ∀ m, m ∈ nr.list ↔ ∃ nm : WordNode, d.heap[m]? = some nm ∧
      nm.isRepresentative = false ∧
      GetRepresentative d.heap (d.heap.length + 1) (some m) = some r := by
  have hwf := reachable_wf d hd
  obtain ⟨_, _, hnd, hmem⟩ := hwf.forest.rep_ok r nr hr hrr
  refine ⟨hnd, fun h => rep_ne_mem d.heap hwf.forest r r nr nr hr hrr h r hr hrr rfl, ?_⟩
  intro m
  constructor
  · intro hm
    obtain ⟨nm, a1, a2, a3⟩ := hmem m hm
    exact ⟨nm, a1, a2, (root_iff d.heap hwf.forest m r).2 ⟨nm, a1, Or.inr ⟨a2, a3⟩⟩⟩
  · rintro ⟨nm, a1, a2, a3⟩
    obtain ⟨nm', b1, hc⟩ := (root_iff d.heap hwf.forest m r).1 a3
    rw [a1] at b1; cases b1
    rcases hc with ⟨c1, _⟩ | ⟨_, c2⟩
    · rw [a2] at c1; cases c1
    · obtain ⟨_, _, r', nr', e1, e2, _, e4⟩ := hwf.forest.mem_ok m nm a1 a2
      rw [c2] at e1; cases e1
      rw [hr] at e2; cases e2
      exact e4

set_option maxRecDepth 100000 in
/-- C15 at the representative `happy` of the scenario of the specification. -/
theorem member_list_exact_witness :
    Reachable scenarioDict ∧
    scenarioDict.heap[0]? = some { word := happy, parent := none, isRepresentative := true,
                                   rank := 3, list := [1, 2, 5] } ∧
    [1, 2, 5].Nodup ∧ 0 ∉ [1, 2, 5] ∧
    (5 ∈ [1, 2, 5] ↔ ∃ nm : WordNode, scenarioDict.heap[5]? = some nm ∧
      nm.isRepresentative = false ∧
      GetRepresentative scenarioDict.heap (scenarioDict.heap.length + 1) (some 5) = some 0) :=
  have h := member_list_exact scenarioDict scenario_reachable 0
    { word := happy, parent := none, isRepresentative := true, rank := 3, list := [1, 2, 5] }
    (by decide) rfl
  ⟨scenario_reachable, by decide, h.1, h.2.1, h.2.2 5⟩

/-- C16. In every dictionary reached by `synonyms_define` calls, every entry
that is not a representative has an empty member list and rank 0. -/
theorem nonrep_list_empty (d : Synonyms) (hd : Reachable d) (m : Nat) (nm : WordNode)
    (hm : d.heap[m]? = some nm) (hmr : nm.isRepresentative = false) :
    nm.list = [] ∧ nm.rank = 0 := by
  obtain ⟨h1, h2, _⟩ := (reachable_wf d hd).forest.mem_ok m nm hm hmr
  exact ⟨h2, h1⟩

set_option maxRecDepth 100000 in
/-- C16 at the entry `sad` of the dictionary after `define(happy, glad,
joyful); define(sad, unhappy); define(sad, happy)`: a representative with one
member that was absorbed. -/
theorem nonrep_list_empty_witness :
    Reachable mergedDict ∧
    ∃ nm : WordNode, mergedDict.heap[3]? = some nm ∧ nm.word = sad ∧
      nm.isRepresentative = false ∧ nm.list = [] ∧ nm.rank = 0 :=
  have hr : Reachable mergedDict :=
    reachable_runFrom twoGroups _ twoGroups_reachable [(sad, [happy])] (by decide)
  have h := nonrep_list_empty mergedDict hr 3
    { word := sad, parent := some 0, isRepresentative := false, rank := 0, list := [] }
    (by decide) rfl
  ⟨hr, _, by decide, rfl, rfl, h.1, h.2⟩

/-! ### Claims about `GetRepresentative` -/

theorem entryOf_known (s : Synonyms) (hs : WF s) (p : Nat) (n : WordNode)
    (hn : s.heap[p]? = some n) : entryOf s n.word = some p := by
  unfold entryOf
  cases hf : (List.range s.heap.length).find?
      (fun q => decide (textOf s.heap q = some n.word)) with
  | none =>
    rw [List.find?_eq_none] at hf
    have := hf p (List.mem_range.2 (getElem?_lt _ _ _ hn))
    simp [textOf, hn] at this
  | some q =>
    have hq := List.find?_some hf
    simp only [textOf, decide_eq_true_eq, Option.map_eq_some'] at hq
    obtain ⟨m, hm, hmw⟩ := hq
    rw [hs.tbl.word_inj q p m n hm hn hmw]

theorem entryOf_unknown (s : Synonyms) (w : Word) (hk : ¬ Known s w) :
    entryOf s w = none := by
  unfold entryOf
  rw [List.find?_eq_none]
  intro q _ hq
  simp only [textOf, decide_eq_true_eq, Option.map_eq_some'] at hq
  obtain ⟨m, hm, hmw⟩ := hq
  exact hk ⟨q, m, hm, hmw⟩

/-- The comparison of representatives the specification describes, on a
well-formed dictionary. -/
theorem areSynonymsSpec_iff (s : Synonyms) (hs : WF s) (w1 w2 : Word) :
    areSynonymsSpec s w1 w2 = true ↔ w1 ≠ w2 ∧ SameGroup s w1 w2 := by
  by_cases hxy : w1 = w2
  · simp [areSynonymsSpec, hxy]
  by_cases hk1 : Known s w1
  swap
  · simp only [areSynonymsSpec, if_neg hxy, entryOf_unknown s w1 hk1]
    constructor
    · intro h; cases h
    · rintro ⟨_, hsg⟩
      exact absurd (sameGroup_known s hs w1 w2 hsg).1 hk1
  by_cases hk2 : Known s w2
  swap
  · obtain ⟨p1, n1, hn1, rfl⟩ := hk1
    simp only [areSynonymsSpec, if_neg hxy, entryOf_known s hs p1 n1 hn1,
      entryOf_unknown s w2 hk2]
    constructor
    · intro h; cases h
    · rintro ⟨_, hsg⟩
      exact absurd (sameGroup_known s hs _ w2 hsg).2 hk2
  obtain ⟨p1, n1, hn1, rfl⟩ := hk1
  obtain ⟨p2, n2, hn2, rfl⟩ := hk2
  obtain ⟨r1, _, e1, _⟩ := root_total s.heap hs.forest p1 n1 hn1
  obtain ⟨r2, _, e2, _⟩ := root_total s.heap hs.forest p2 n2 hn2
  have hrep1 : representative s n1.word = some r1 := by
    unfold representative; rw [find_known s hs.tbl p1 n1 hn1]; exact e1
  have hrep2 : representative s n2.word = some r2 := by
    unfold representative; rw [find_known s hs.tbl p2 n2 hn2]; exact e2
  simp only [areSynonymsSpec, if_neg hxy, entryOf_known s hs p1 n1 hn1,
    entryOf_known s hs p2 n2 hn2, e1, e2, decide_eq_true_eq]
  constructor
  · intro h
    exact ⟨hxy, r1, hrep1, by rw [hrep2, h]⟩
  · rintro ⟨_, r, a1, a2⟩
    rw [hrep1] at a1; rw [hrep2] at a2
    cases a1; cases a2; rfl

/-- The part of C17 that holds. On every dictionary reached by
`synonyms_define` calls and for every two words that index the table inside
its bounds, `is_synonym` with its comparison of parent pointers returns, and
returns what the plain comparison of representatives gives: false for equal
words and when a word has no entry, otherwise whether `GetRepresentative` of
the two entries is the same entry. For equal words this holds whatever they
hash to. -/
theorem is_synonym_refines (d : Synonyms) (hd : Reachable d) (w1 w2 : Word)
    (hr : w1 = w2 ∨ (HashInRange w1 ∧ HashInRange w2)) :
    is_synonym d w1 w2 = some (areSynonymsSpec d w1 w2) := by
  have hwf := reachable_wf d hd
  by_cases hxy : w1 = w2
  · simp [is_synonym, areSynonymsSpec, hxy]
  rcases hr with hr | ⟨h1, h2⟩
  · exact absurd hr hxy
  obtain ⟨b, hb, hiff⟩ := is_synonym_spec d hwf w1 w2 h1 h2
  rw [hb]
  congr 1
  have hs := areSynonymsSpec_iff d hwf w1 w2
  cases b with
  | true =>
    exact (hs.2 (hiff.1 rfl)).symm
  | false =>
    cases hsp : areSynonymsSpec d w1 w2 with
    | false => rfl
    | true =>
      have := hiff.2 (hs.1 hsp)
      cases this

set_option maxRecDepth 100000 in
/-- The part of C17 that holds, at the scenario of the specification: both
forms answer true for `glad`, `cheerful` (two members), false for `happy`,
`sad` (two representatives) and false for the unknown `ghost`. -/
theorem is_synonym_refines_witness :
    Reachable scenarioDict ∧ HashInRange glad ∧ HashInRange cheerful ∧
    is_synonym scenarioDict glad cheerful = some (areSynonymsSpec scenarioDict glad cheerful) ∧
    areSynonymsSpec scenarioDict glad cheerful = true ∧
    areSynonymsSpec scenarioDict happy sad = false ∧
    areSynonymsSpec scenarioDict happy ghost = false :=
  ⟨scenario_reachable, by decide, by decide,
    is_synonym_refines scenarioDict scenario_reachable glad cheerful
      (Or.inr ⟨by decide, by decide⟩),
    by decide, by decide, by decide⟩

set_option maxRecDepth 100000 in
/-- C17 fails on the code. On the dictionary after `define(a)` and the words
`a` and `é` (UTF-8 bytes `0xC3 0xA9` read through a signed `char`), the plain
comparison of the specification gives false, `é` being unknown, while
`is_synonym` does not return: `FindWordNode(é)` reads `table[-73]`, outside
the table. The parent-pointer comparison itself is not at fault; the defect
is the negative value of `getHashVal` (C10). -/
theorem is_synonym_differs_from_spec :
    run [(wordA, [])] = some dictA ∧
    dictA.heap.map WordNode.word = [wordA] ∧
    entryOf dictA wordA = some 0 ∧ entryOf dictA eAcute = none ∧
    areSynonymsSpec dictA wordA eAcute = false ∧
    is_synonym dictA wordA eAcute = none ∧
    is_synonym dictA wordA eAcute ≠ some (areSynonymsSpec dictA wordA eAcute) := by
  decide

/-- C18. On every entry of every dictionary reached by `synonyms_define`
calls `GetRepresentative` returns: two evaluations of its loop condition
suffice, so that the parent chain is finite, has no cycle and meets no null
parent before an entry with `isRepresentative` set; the entry returned is the
entry itself or its parent, and it is the only representative of the group,
that is the only entry with `isRepresentative` set that `GetRepresentative`
maps to it. -/
theorem getRepresentative_terminates (d : Synonyms) (hd : Reachable d) (p : Nat)
    (n : WordNode) (hp : d.heap[p]? = some n) :
    ∃ (r : Nat) (nr : WordNode),
      (∀ fuel, 2 ≤ fuel → GetRepresentative d.heap fuel (some p) = some r) ∧
      GetRepresentative d.heap (d.heap.length + 1) (some p) = some r ∧
      d.heap[r]? = some nr ∧ nr.isRepresentative = true ∧
      (r = p ∨ n.parent = some r) ∧
      (∀ (q : Nat) (nq : WordNode), d.heap[q]? = some nq → nq.isRepresentative = true →
        GetRepresentative d.heap (d.heap.length + 1) (some q) = some r → q = r) := by
  have hwf := reachable_wf d hd
  obtain ⟨r, nr, e1, e2, e3, _⟩ := root_total d.heap hwf.forest p n hp
  obtain ⟨n', hn', hc⟩ := (root_iff d.heap hwf.forest p r).1 e1
  rw [hp] at hn'; cases hn'
  refine ⟨r, nr, ?_, e1, e2, e3, ?_, ?_⟩
  · intro fuel hfuel
    obtain ⟨k, rfl⟩ : ∃ k, fuel = k + 2 := ⟨fuel - 2, by omega⟩
    rcases hc with ⟨h1, rfl⟩ | ⟨h1, h2⟩
    · exact root_rep d.heap r n (k + 1) hp h1
    · obtain ⟨r', a1, a2⟩ := root_mem d.heap hwf.forest p n k hp h1
      rw [h2] at a1; cases a1
      exact a2
  · rcases hc with ⟨_, h⟩ | ⟨_, h⟩
    · exact Or.inl h
    · exact Or.inr h
  · intro q nq hq hqr hroot
    obtain ⟨nq', hq', hcq⟩ := (root_iff d.heap hwf.forest q r).1 hroot
    rw [hq] at hq'; cases hq'
    rcases hcq with ⟨_, h⟩ | ⟨h, _⟩
    · exact h.symm
    · rw [hqr] at h; cases h

set_option maxRecDepth 100000 in
/-- C18 at the entry `cheerful` (entry 5) of the scenario of the
specification, whose representative is `happy` (entry 0). -/
theorem getRepresentative_terminates_witness :
    Reachable scenarioDict ∧
    scenarioDict.heap[5]? = some { word := cheerful, parent := some 0,
                                   isRepresentative := false, rank := 0, list := [] } ∧
    GetRepresentative scenarioDict.heap 2 (some 5) = some 0 ∧
    ∃ (r : Nat) (nr : WordNode),
      (∀ fuel, 2 ≤ fuel → GetRepresentative scenarioDict.heap fuel (some 5) = some r) ∧
      GetRepresentative scenarioDict.heap (scenarioDict.heap.length + 1) (some 5) = some r ∧
      scenarioDict.heap[r]? = some nr ∧ nr.isRepresentative = true ∧
      (r = 5 ∨ (some 0 : Option Nat) = some r) ∧
      (∀ (q : Nat) (nq : WordNode), scenarioDict.heap[q]? = some nq →
        nq.isRepresentative = true →
        GetRepresentative scenarioDict.heap (scenarioDict.heap.length + 1) (some q) = some r →
        q = r) :=
  ⟨scenario_reachable, by decide, by decide,
    getRepresentative_terminates scenarioDict scenario_reachable 5
      { word := cheerful, parent := some 0, isRepresentative := false, rank := 0, list := [] }
      (by decide)⟩

/-- C19. For every entry `x` of every dictionary reached by `synonyms_define`
calls, `GetRepresentative(GetRepresentative(x))` is `GetRepresentative(x)`, and
`GetRepresentative(x)` is `x` exactly when `x.isRepresentative` is true. -/
theorem getRepresentative_idempotent (d : Synonyms) (hd : Reachable d) (p : Nat)
    (n : WordNode) (hp : d.heap[p]? = some n) :
    ∃ r, GetRepresentative d.heap (d.heap.length + 1) (some p) = some r ∧
      GetRepresentative d.heap (d.heap.length + 1) (some r) = some r ∧
      (r = p ↔ n.isRepresentative = true) := by
  have hwf := reachable_wf d hd
  obtain ⟨r, nr, e1, e2, e3, _⟩ := root_total d.heap hwf.forest p n hp
  refine ⟨r, e1, (root_iff d.heap hwf.forest r r).2 ⟨nr, e2, Or.inl ⟨e3, rfl⟩⟩, ?_⟩
  obtain ⟨n', hn', hc⟩ := (root_iff d.heap hwf.forest p r).1 e1
  rw [hp] at hn'; cases hn'
  constructor
  · rintro rfl
    rw [hp] at e2; cases e2
    exact e3
  · intro hr
    rcases hc with ⟨_, h⟩ | ⟨h, _⟩
    · exact h
    · rw [hr] at h; cases h

set_option maxRecDepth 100000 in
/-- C19 at the entry `cheerful` (entry 5) of the scenario of the
specification. -/
theorem getRepresentative_idempotent_witness :
    Reachable scenarioDict ∧
    GetRepresentative scenarioDict.heap (scenarioDict.heap.length + 1) (some 5) = some 0 ∧
    GetRepresentative scenarioDict.heap (scenarioDict.heap.length + 1) (some 0) = some 0 ∧
    ∃ r, GetRepresentative scenarioDict.heap (scenarioDict.heap.length + 1) (some 5) = some r ∧
      GetRepresentative scenarioDict.heap (scenarioDict.heap.length + 1) (some r) = some r ∧
      (r = 5 ↔ false = true) :=
  ⟨scenario_reachable, by decide, by decide,
    getRepresentative_idempotent scenarioDict scenario_reachable 5
      { word := cheerful, parent := some 0, isRepresentative := false, rank := 0, list := [] }
      (by decide)⟩

/-! ### Claim about the flat forest -/

/-- A merge leaves every entry that is not a representative as it is in that
respect. -/
theorem addSynonyms_keeps_nonrep (heap : List WordNode) (hf : Forest heap) (p1 p2 : Nat)
    (n1 n2 : WordNode) (h1 : heap[p1]? = some n1) (h2 : heap[p2]? = some n2)
    (hr1 : n1.isRepresentative = true) (hr2 : n2.isRepresentative = true)
    (h : List WordNode) (r : Nat) (hadd : AddSynonyms heap p1 p2 = some (h, r))
    (q : Nat) (nq : WordNode) (hq : heap[q]? = some nq) (hqr : nq.isRepresentative = false) :
    ∃ nq' : WordNode, h[q]? = some nq' ∧ nq'.isRepresentative = false := by
  have key : ∀ (a b : Nat) (na nb : WordNode) (heap' : List WordNode), a ≠ b →
      heap[a]? = some na → heap[b]? = some nb → na.isRepresentative = true →
      nb.isRepresentative = true → Absorbed heap heap' a b na nb →
      ∃ nq' : WordNode, heap'[q]? = some nq' ∧ nq'.isRepresentative = false := by
    intro a b na nb heap' hab ha hb hra hrb habs
    have hqa : q ≠ a := by
      rintro rfl
      rw [ha] at hq; cases hq
      rw [hra] at hqr; cases hqr
    have hqb : q ≠ b := by
      rintro rfl
      rw [hb] at hq; cases hq
      rw [hrb] at hqr; cases hqr
    by_cases hmem : q ∈ nb.list
    · exact ⟨_, habs.at_mem q nq hmem hq, hqr⟩
    · exact ⟨nq, by rw [habs.at_other q hqa hqb hmem]; exact hq, hqr⟩
  unfold AddSynonyms at hadd
  by_cases he : p1 = p2
  · rw [if_pos he] at hadd
    cases hadd
    exact ⟨nq, hq, hqr⟩
  · rw [if_neg he] at hadd
    simp only [h1, h2] at hadd
    by_cases hrank : n1.rank ≥ n2.rank
    · rw [if_pos hrank] at hadd
      obtain ⟨heap', e1, e2⟩ := absorb_absorbed heap hf p1 p2 n1 n2 he h1 h2 hr1 hr2 hrank
      rw [e1] at hadd
      cases hadd
      exact key p1 p2 n1 n2 h he h1 h2 hr1 hr2 e2
    · rw [if_neg hrank] at hadd
      obtain ⟨heap', e1, e2⟩ :=
        absorb_absorbed heap hf p2 p1 n2 n1 (Ne.symm he) h2 h1 hr2 hr1 (by omega)
      rw [e1] at hadd
      cases hadd
      exact key p2 p1 n2 n1 h (Ne.symm he) h2 h1 hr2 hr1 e2

theorem defineLoop_keeps_nonrep (ts : List Word) :
    ∀ (s s' : Synonyms) (w1 : Nat) (n1 : WordNode), WF s → s.heap[w1]? = some n1 →
      n1.isRepresentative = true → defineLoop s w1 ts = some s' →
      ∀ (q : Nat) (nq : WordNode), s.heap[q]? = some nq → nq.isRepresentative = false →
        ∃ nq' : WordNode, s'.heap[q]? = some nq' ∧ nq'.isRepresentative = false := by
  induction ts with
  | nil =>
    intro s s' w1 n1 _ _ _ h q nq hq hqr
    cases h
    exact ⟨nq, hq, hqr⟩
  | cons t ts ih =>
    intro s s' w1 n1 hs h1 hr1 h q nq hq hqr
    have ht := defineLoop_hashInRange (t :: ts) s s' w1 h t (by simp)
    obtain ⟨s1, w2, n2, e1, hs1, e2, e3, -, -, -, e7, -, -, -⟩ := resolve_spec s hs t ht
    obtain ⟨hh, r2, nr2, a1, a2, a3, a4, -, -, -, -⟩ :=
      addSynonyms_spec s1 hs1 w1 w2 n1 n2 (e7 w1 n1 h1) e2 hr1 e3
    simp only [defineLoop, e1, a1] at h
    obtain ⟨nq1, b1, b2⟩ := addSynonyms_keeps_nonrep s1.heap hs1.forest w1 w2 n1 n2
      (e7 w1 n1 h1) e2 hr1 e3 hh r2 a1 q nq (e7 q nq hq) hqr
    exact ih { s1 with heap := hh } s' r2 nr2 a2 a3 a4 h q nq1 b1 b2

theorem define_keeps_nonrep (s s' : Synonyms) (hs : WF s) (w : Word) (ts : List Word)
    (h : synonyms_define s w ts = some s') (q : Nat) (nq : WordNode)
    (hq : s.heap[q]? = some nq) (hqr : nq.isRepresentative = false) :
    ∃ nq' : WordNode, s'.heap[q]? = some nq' ∧ nq'.isRepresentative = false := by
  have hw := define_hashInRange s s' w ts h w (by simp)
  obtain ⟨s1, w1, n1, e1, hs1, e2, e3, -, -, -, e7, -, -, -⟩ := resolve_spec s hs w hw
  unfold synonyms_define at h
  simp only [e1] at h
  exact defineLoop_keeps_nonrep ts s1 s' w1 n1 hs1 e2 e3 h q nq (e7 q nq hq) hqr

theorem runFrom_keeps_nonrep (calls : List (Word × List Word)) :
    ∀ (s d : Synonyms), WF s → runFrom s calls = some d →
      ∀ (q : Nat) (nq : WordNode), s.heap[q]? = some nq → nq.isRepresentative = false →
        ∃ nq' : WordNode, d.heap[q]? = some nq' ∧ nq'.isRepresentative = false := by
  induction calls with
  | nil =>
    intro s d _ h q nq hq hqr
    cases h
    exact ⟨nq, hq, hqr⟩
  | cons c cs ih =>
    intro s d hs h q nq hq hqr
    simp only [runFrom] at h
    cases hd : synonyms_define s c.1 c.2 with
    | none => rw [hd] at h; cases h
    | some s1 =>
      rw [hd] at h
      simp only at h
      obtain ⟨nq1, b1, b2⟩ := define_keeps_nonrep s s1 hs c.1 c.2 hd q nq hq hqr
      exact ih s1 d (define_wf s s1 hs c.1 c.2 hd) h q nq1 b1 b2

/-- C20. In every dictionary reached by `synonyms_define` calls every
representative has a null parent; every other entry has a parent, which is a
representative, so that `GetRepresentative` returns after at most one parent
link (two evaluations of its loop condition); and an entry that is not a
representative is not one in any dictionary reached later by further
`synonyms_define` calls. -/
theorem flat_forest (d : Synonyms) (hd : Reachable d) (p : Nat) (n : WordNode)
    (hp : d.heap[p]? = some n) :
    (n.isRepresentative = true → n.parent = none) ∧
    (n.isRepresentative = false → ∃ (r : Nat) (nr : WordNode),
      n.parent = some r ∧ d.heap[r]? = some nr ∧ nr.isRepresentative = true) ∧
    (∃ r, GetRepresentative d.heap 2 (some p) = some r) ∧
    (n.isRepresentative = false → ∀ (calls : List (Word × List Word)) (d' : Synonyms),
      runFrom d calls = some d' →
      ∃ n' : WordNode, d'.heap[p]? = some n' ∧ n'.isRepresentative = false) := by
  have hwf := reachable_wf d hd
  refine ⟨fun h => (hwf.forest.rep_ok p n hp h).1, ?_, ?_, ?_⟩
  · intro h
    obtain ⟨_, _, r, nr, e1, e2, e3, _⟩ := hwf.forest.mem_ok p n hp h
    exact ⟨r, nr, e1, e2, e3⟩
  · cases h : n.isRepresentative with
    | true => exact ⟨p, root_rep d.heap p n 1 hp h⟩
    | false =>
      obtain ⟨r, _, e⟩ := root_mem d.heap hwf.forest p n 0 hp h
      exact ⟨r, e⟩
  · intro h calls d' hrun
    exact runFrom_keeps_nonrep calls d d' hwf hrun p n hp h

set_option maxRecDepth 100000 in
/-- C20 at the entry `sad` (entry 3): a representative after `define(happy,
glad, joyful); define(sad, unhappy)`, absorbed by `define(sad, happy)`, and
not a representative after one more call `define(sad, ghost)`. -/
theorem flat_forest_witness :
    Reachable mergedDict ∧
    twoGroups.heap[3]? = some { word := sad, parent := none, isRepresentative := true,
                                rank := 1, list := [4] } ∧
    mergedDict.heap[3]? = some { word := sad, parent := some 0, isRepresentative := false,
                                 rank := 0, list := [] } ∧
    (∃ d', runFrom mergedDict [(sad, [ghost])] = some d' ∧
      ∃ n' : WordNode, d'.heap[3]? = some n' ∧ n'.isRepresentative = false) ∧
    (∃ (r : Nat) (nr : WordNode),
      (some 0 : Option Nat) = some r ∧ mergedDict.heap[r]? = some nr ∧
      nr.isRepresentative = true) ∧
    (∃ r, GetRepresentative mergedDict.heap 2 (some 3) = some r) :=
  have hr : Reachable mergedDict :=
    reachable_runFrom twoGroups _ twoGroups_reachable [(sad, [happy])] (by decide)
  have h := flat_forest mergedDict hr 3
    { word := sad, parent := some 0, isRepresentative := false, rank := 0, list := [] }
    (by decide)
  ⟨hr, by decide, by decide,
    ⟨(runFrom mergedDict [(sad, [ghost])]).getD synonyms_init, by decide,
      h.2.2.2 rfl [(sad, [ghost])] _ (by decide)⟩,
    h.2.1 rfl, h.2.2.1⟩

end Synonyms
